import Mathlib

/-!
# Verification of the calculator expression core (src/script.js)

Shallow embedding of the Normalizer (`normalizeExpression`), the character
allow-list (`isSafe`), the safe evaluator (`safeEval`) and the compute/state
step (`compute`) of the calculator, over `List Char` / `String` and exact
rational arithmetic.

Modelling conventions:
* JS numbers are modelled by `JSNum`: an exact rational, `inf`, `negInf` or
  `nan`.  All concrete values exercised by the theorems below are exactly
  representable IEEE doubles on which the modelled operations agree with the
  JS float operations; negative zero and float rounding/overflow are not
  modelled.
* Evaluation outcomes the model does not commit to (identifiers falling
  through the `with` scope to host globals, irrational intermediate values,
  legacy octal literals, comment syntax) are an explicit `undet` outcome,
  never guessed.
* String-scanning functions mirror the JS regex replaces of the source
  left-to-right with global continuation after each match; they take a fuel
  argument (always instantiated with more than the list length) so that they
  are structurally recursive and kernel-evaluable.
-/

/-- JS `\s` (whitespace class) restricted to the code points JS recognises. -/
def jsSpace (c : Char) : Bool :=
  c = ' ' || c = '\t' || c = '\n' || c = '\r' || c = '\x0b' || c = '\x0c' ||
  c = '\u00a0' || c = '\u1680' ||
  ('\u2000' ≤ c && c ≤ '\u200a') ||
  c = '\u2028' || c = '\u2029' || c = '\u202f' || c = '\u205f' ||
  c = '\u3000' || c = '\ufeff'

/-- The regex class `[0-9.]` used by the percent rewrite. -/
def isDigitDot (c : Char) : Bool := c.isDigit || c = '.'

/-- JS `\w`: ASCII letters, digits, underscore (word characters for `\b`). -/
def wordChar (c : Char) : Bool := c.isAlpha || c.isDigit || c = '_'

/-- ASCII lower-casing, the canonicalisation the `i` regex flag applies to
ASCII patterns such as `pi`, `e`, `log10`, `ln`. -/
def lowerC (c : Char) : Char :=
  if h : 65 ≤ c.toNat ∧ c.toNat ≤ 90 then
    Char.ofNatAux (c.toNat + 32) (Or.inl (by omega))
  else c

/-- Unicode operator substitution of the Normalizer:
`×`→`*`, `÷`→`/`, `−`→`-` (three sequential global replaces of single
characters, equivalent to one character map). -/
def uniOp (c : Char) : Char :=
  if c = '×' then '*' else if c = '÷' then '/' else if c = '−' then '-' else c

def unicodeOps (cs : List Char) : List Char := cs.map uniOp

/-- Fueled scanner for the percent rewrite
`s.replace(/([0-9.]+)\s*%/g, sub(dollar)1/100close)` — at each position, a
maximal run of `[0-9.]` followed by optional whitespace and `%` is replaced
by the parenthesized division; scanning continues after the `%`.  (The JS
regex needs no backtracking here: shrinking the greedy runs only exposes
characters that cannot be `%`.) -/
def pctGo : Nat → List Char → List Char
  | 0, _ => []
  | _ + 1, [] => []
  | fuel + 1, c :: cs =>
    if isDigitDot c then
      match List.dropWhile jsSpace (List.dropWhile isDigitDot (c :: cs)) with
      | '%' :: rest =>
        '(' :: (List.takeWhile isDigitDot (c :: cs) ++
          '/' :: '1' :: '0' :: '0' :: ')' :: pctGo fuel rest)
      | _ => c :: pctGo fuel cs
    else c :: pctGo fuel cs

def percentRewrite (cs : List Char) : List Char := pctGo (cs.length + 1) cs

/-- `s.replace(/\^/g, '**')`. -/
def caretRewrite : List Char → List Char
  | [] => []
  | '^' :: cs => '*' :: '*' :: caretRewrite cs
  | c :: cs => c :: caretRewrite cs

/-- Case-insensitively strip the (lowercase) pattern `w` from the front of a
string, returning the remainder on success. -/
def stripCI : List Char → List Char → Option (List Char)
  | [], cs => some cs
  | _ :: _, [] => none
  | p :: ps, c :: cs => if lowerC c = p then stripCI ps cs else none

/-- Word boundary to the right: end of input or a non-word character. -/
def noWordHead : List Char → Bool
  | [] => true
  | c :: _ => !wordChar c

/-- Fueled scanner for a whole-word case-insensitive global replace
`s.replace(/\bw\b/gi, repl)`.  `prev` records whether the character before
the scan position is a word character (false at the start of input); a match
requires no word character before, the pattern case-insensitively, and a word
boundary after.  After a match the scan continues right after the matched
text, whose last character is a word character, hence `prev := true`. -/
def rwGo (w repl : List Char) : Nat → Bool → List Char → List Char
  | 0, _, _ => []
  | _ + 1, _, [] => []
  | fuel + 1, prev, c :: cs =>
    match (if prev then none else stripCI w (c :: cs)) with
    | some rest =>
      if noWordHead rest then repl ++ rwGo w repl fuel true rest
      else c :: rwGo w repl fuel (wordChar c) cs
    | none => c :: rwGo w repl fuel (wordChar c) cs

def wordRw (w repl cs : List Char) : List Char := rwGo w repl (cs.length + 1) false cs

/-- The Normalizer `normalizeExpression` of src/script.js: unicode operator
substitution, percent rewrite, caret to `**`, then the whole-word
case-insensitive rewrites `pi`→`PI`, `e`→`E`, `log10`→`log10`, `ln`→`ln`
(the last two only normalise letter case), in source order.  The early
return on the empty string agrees with running the chain on it. -/
def normalizeExpression (s : String) : String :=
  ⟨wordRw ['l', 'n'] ['l', 'n']
    (wordRw ['l', 'o', 'g', '1', '0'] ['l', 'o', 'g', '1', '0']
      (wordRw ['e'] ['E']
        (wordRw ['p', 'i'] ['P', 'I']
          (caretRewrite (percentRewrite (unicodeOps s.data))))))⟩

/-- A character of the allow-list regex of `isSafe`:
0-9 + - * / ( ) . , % whitespace letters underscore. -/
def isSafeChar (c : Char) : Bool :=
  c.isDigit || c = '+' || c = '-' || c = '*' || c = '/' || c = '(' ||
  c = ')' || c = '.' || c = ',' || c = '%' || jsSpace c || c.isAlpha || c = '_'

/-- `isSafe` of src/script.js: the whole string matches the character
allow-list. -/
def isSafe (s : String) : Bool := s.data.all isSafeChar

/-- The double-dot sanity check `/\.\./.test(s)`. -/
def hasDoubleDot : List Char → Bool
  | '.' :: '.' :: _ => true
  | _ :: cs => hasDoubleDot cs
  | [] => false

/-! ## Kernel-evaluable rational operations

The standard `Rat` field operations are implemented behind
compiler-optimised wrappers that the kernel does not reduce; the operations
below compute the same values through `Rat.divInt`, which does reduce, so
that every theorem about a concrete input can be checked by `decide`.  The
bridge lemmas `qadd_eq`, `qmul_eq`, `qsub_eq`, `qdiv_eq` and `qpow_eq`
(further down) prove them equal to the field operations. -/

def qadd (a b : ℚ) : ℚ := Rat.divInt (a.num * b.den + b.num * a.den) (a.den * b.den)

def qmul (a b : ℚ) : ℚ := Rat.divInt (a.num * b.num) (a.den * b.den)

def qsub (a b : ℚ) : ℚ := qadd a (-b)

def qdiv (a b : ℚ) : ℚ := Rat.divInt (a.num * b.den) (a.den * b.num)

def qpow (a : ℚ) : ℤ → ℚ
  | .ofNat n => a ^ n
  | .negSucc n => qdiv 1 (a ^ (n + 1))

/-! ## JS numbers and arithmetic

`JSNum` models a JS number as an exact rational, `inf`, `negInf` or `nan`.
The operations follow the IEEE semantics JS uses, with rationals in place of
doubles (exact where doubles round). -/

inductive JSNum where
  | num (q : ℚ)
  | inf
  | negInf
  | nan
deriving DecidableEq

/-- Truncation toward zero, as JS `%` uses. -/
def jtrunc (q : ℚ) : ℤ := if 0 ≤ q then ⌊q⌋ else -⌊-q⌋

def jneg : JSNum → JSNum
  | .num q => .num (-q)
  | .inf => .negInf
  | .negInf => .inf
  | .nan => .nan

def jadd : JSNum → JSNum → JSNum
  | .nan, _ => .nan
  | _, .nan => .nan
  | .inf, .negInf => .nan
  | .negInf, .inf => .nan
  | .inf, _ => .inf
  | _, .inf => .inf
  | .negInf, _ => .negInf
  | _, .negInf => .negInf
  | .num a, .num b => .num (qadd a b)

def jsub (a b : JSNum) : JSNum := jadd a (jneg b)

def jmul : JSNum → JSNum → JSNum
  | .nan, _ => .nan
  | _, .nan => .nan
  | .num a, .num b => .num (qmul a b)
  | .num a, .inf => if a = 0 then .nan else if 0 < a then .inf else .negInf
  | .num a, .negInf => if a = 0 then .nan else if 0 < a then .negInf else .inf
  | .inf, .num b => if b = 0 then .nan else if 0 < b then .inf else .negInf
  | .negInf, .num b => if b = 0 then .nan else if 0 < b then .negInf else .inf
  | .inf, .inf => .inf
  | .inf, .negInf => .negInf
  | .negInf, .inf => .negInf
  | .negInf, .negInf => .inf

/-- JS division; division by (unsigned) zero gives a signed infinity, `0/0`
gives `nan` (negative zero is not modelled). -/
def jdiv : JSNum → JSNum → JSNum
  | .nan, _ => .nan
  | _, .nan => .nan
  | .num a, .num b =>
    if b = 0 then (if a = 0 then .nan else if 0 < a then .inf else .negInf)
    else .num (qdiv a b)
  | .num _, .inf => .num 0
  | .num _, .negInf => .num 0
  | .inf, .num b => if 0 ≤ b then .inf else .negInf
  | .negInf, .num b => if 0 ≤ b then .negInf else .inf
  | .inf, .inf => .nan
  | .inf, .negInf => .nan
  | .negInf, .inf => .nan
  | .negInf, .negInf => .nan

/-- JS remainder `%`: sign of the dividend, truncated quotient. -/
def jmod : JSNum → JSNum → JSNum
  | .nan, _ => .nan
  | _, .nan => .nan
  | .inf, _ => .nan
  | .negInf, _ => .nan
  | .num a, .inf => .num a
  | .num a, .negInf => .num a
  | .num a, .num b =>
    if b = 0 then .nan else .num (qsub a (qmul b (jtrunc (qdiv a b) : ℚ)))

/-- JS exponentiation (`**` and `Math.pow`): anything to the power `0` is
`1`; an integer exponent on a rational base is exact; a fractional exponent
on a negative base is `nan`; a fractional exponent on a positive base is an
irrational value in general and is left undetermined (`none`). -/
def jpow : JSNum → JSNum → Option JSNum := fun b e =>
  match e with
  | .num e0 =>
    if e0 = 0 then some (.num 1)
    else
      match b with
      | .nan => some .nan
      | .inf => some (if 0 < e0 then .inf else .num 0)
      | .negInf =>
        if 0 < e0 then
          some (if e0.den = 1 ∧ e0.num % 2 ≠ 0 then .negInf else .inf)
        else some (.num 0)
      | .num b0 =>
        if e0.den = 1 then
          if b0 = 0 then some (if 0 < e0 then .num 0 else .inf)
          else some (.num (qpow b0 e0.num))
        else
          if b0 < 0 then some .nan
          else if b0 = 0 then some (if 0 < e0 then .num 0 else .inf)
          else none
  | .nan => some .nan
  | .inf =>
    match b with
    | .nan => some .nan
    | .inf => some .inf
    | .negInf => some .inf
    | .num b0 => some (if b0 = 1 ∨ b0 = -1 then .nan else if 1 < |b0| then .inf else .num 0)
  | .negInf =>
    match b with
    | .nan => some .nan
    | .inf => some (.num 0)
    | .negInf => some (.num 0)
    | .num b0 => some (if b0 = 1 ∨ b0 = -1 then .nan else if 1 < |b0| then .num 0 else .inf)

/-! ## The fixed namespace M -/

/-- Argument fetch: JS passes `undefined` for a missing argument, which the
Math functions coerce to `nan`; extra arguments are ignored. -/
def argN (args : List JSNum) (i : Nat) : JSNum := (args.get? i).getD .nan

/-- `Math.sqrt` on the modelled values: negative gives `nan`; an exact
rational square root is returned, other positive arguments are irrational
and undetermined. -/
def jsqrt : JSNum → Option JSNum
  | .nan => some .nan
  | .inf => some .inf
  | .negInf => some .nan
  | .num q =>
    if q < 0 then some .nan
    else if q = 0 then some (.num 0)
    else
      if Nat.sqrt q.num.toNat * Nat.sqrt q.num.toNat = q.num.toNat ∧
         Nat.sqrt q.den * Nat.sqrt q.den = q.den then
        some (.num (qdiv (Nat.sqrt q.num.toNat : ℚ) (Nat.sqrt q.den : ℚ)))
      else none

def jfloor : JSNum → JSNum
  | .num q => .num ⌊q⌋
  | x => x

def jceil : JSNum → JSNum
  | .num q => .num ⌈q⌉
  | x => x

/-- `Math.round`: nearest integer, ties toward positive infinity. -/
def jround : JSNum → JSNum
  | .num q => .num (⌊qadd q (mkRat 1 2)⌋ : ℤ)
  | x => x

def jabs : JSNum → JSNum
  | .num q => .num |q|
  | .negInf => .inf
  | x => x

def jmax2 : JSNum → JSNum → JSNum
  | .inf, _ => .inf
  | _, .inf => .inf
  | .negInf, x => x
  | x, .negInf => x
  | .num a, .num b => .num (max a b)
  | x, _ => x

def jmin2 : JSNum → JSNum → JSNum
  | .negInf, _ => .negInf
  | _, .negInf => .negInf
  | .inf, x => x
  | x, .inf => x
  | .num a, .num b => .num (min a b)
  | x, _ => x

/-- `Math.max`: `-Infinity` on no arguments, `nan` if any argument is. -/
def jmaxL (args : List JSNum) : JSNum :=
  if args.any (· = .nan) then .nan else args.foldl jmax2 .negInf

/-- `Math.min`: `Infinity` on no arguments, `nan` if any argument is. -/
def jminL (args : List JSNum) : JSNum :=
  if args.any (· = .nan) then .nan else args.foldl jmin2 .inf

/-- `Math.sin`: defined on the special values and zero, otherwise an
irrational value the model leaves undetermined. -/
def jsin : JSNum → Option JSNum
  | .nan => some .nan
  | .inf => some .nan
  | .negInf => some .nan
  | .num q => if q = 0 then some (.num 0) else none

def jcos : JSNum → Option JSNum
  | .nan => some .nan
  | .inf => some .nan
  | .negInf => some .nan
  | .num q => if q = 0 then some (.num 1) else none

def jtan : JSNum → Option JSNum
  | .nan => some .nan
  | .inf => some .nan
  | .negInf => some .nan
  | .num q => if q = 0 then some (.num 0) else none

def jasin : JSNum → Option JSNum
  | .nan => some .nan
  | .inf => some .nan
  | .negInf => some .nan
  | .num q => if q = 0 then some (.num 0) else if q < -1 ∨ 1 < q then some .nan else none

def jacos : JSNum → Option JSNum
  | .nan => some .nan
  | .inf => some .nan
  | .negInf => some .nan
  | .num q => if q = 1 then some (.num 0) else if q < -1 ∨ 1 < q then some .nan else none

def jatan : JSNum → Option JSNum
  | .nan => some .nan
  | .num q => if q = 0 then some (.num 0) else none
  | _ => none

def jexp : JSNum → Option JSNum
  | .nan => some .nan
  | .inf => some .inf
  | .negInf => some (.num 0)
  | .num q => if q = 0 then some (.num 1) else none

/-- `Math.log` (natural logarithm, also bound as `ln` and as `log`). -/
def jlog : JSNum → Option JSNum
  | .nan => some .nan
  | .inf => some .inf
  | .negInf => some .nan
  | .num q =>
    if q < 0 then some .nan
    else if q = 0 then some .negInf
    else if q = 1 then some (.num 0)
    else none

def jlog10 : JSNum → Option JSNum
  | .nan => some .nan
  | .inf => some .inf
  | .negInf => some .nan
  | .num q =>
    if q < 0 then some .nan
    else if q = 0 then some .negInf
    else if q = 1 then some (.num 0)
    else none

/-- The function entries of the namespace `M` built by `safeEval`. -/
def nsFun (n : String) : Option (List JSNum → Option JSNum) :=
  if n = "sin" then some (fun a => jsin (argN a 0))
  else if n = "cos" then some (fun a => jcos (argN a 0))
  else if n = "tan" then some (fun a => jtan (argN a 0))
  else if n = "asin" then some (fun a => jasin (argN a 0))
  else if n = "acos" then some (fun a => jacos (argN a 0))
  else if n = "atan" then some (fun a => jatan (argN a 0))
  else if n = "sqrt" then some (fun a => jsqrt (argN a 0))
  else if n = "abs" then some (fun a => some (jabs (argN a 0)))
  else if n = "floor" then some (fun a => some (jfloor (argN a 0)))
  else if n = "ceil" then some (fun a => some (jceil (argN a 0)))
  else if n = "round" then some (fun a => some (jround (argN a 0)))
  else if n = "max" then some (fun a => some (jmaxL a))
  else if n = "min" then some (fun a => some (jminL a))
  else if n = "pow" then some (fun a => jpow (argN a 0) (argN a 1))
  else if n = "exp" then some (fun a => jexp (argN a 0))
  else if n = "log" then some (fun a => jlog (argN a 0))
  else if n = "ln" then some (fun a => jlog (argN a 0))
  else if n = "log10" then some (fun a => jlog10 (argN a 0))
  else none

/-- The ANS entry of M: the last answer if one is a number, else `0`. -/
def ansVal : Option ℚ → ℚ
  | some q => q
  | none => 0

/-- The constant entries of M.  `some none` marks a constant that exists but
whose (irrational) value the model does not determine (`PI`, `E`). -/
def nsConstVal (la : Option ℚ) (n : String) : Option (Option JSNum) :=
  if n = "PI" then some none
  else if n = "E" then some none
  else if n = "ANS" then some (some (.num (ansVal la)))
  else none

/-! ## Lexing and parsing the canonical expression

The code evaluates `with(M)\x7b return ( s ); \x7d` via `new Function`; the
model lexes and parses the JS expression grammar restricted to what the
allow-list admits.  `MRes` distinguishes a determined result, a determined
failure (`err`: a syntax error at construction or an exception at run time —
both reach the same `catch`), and an outcome the model does not determine
(`undet`: host-global identifier lookup, comment syntax, legacy octal
literals, irrational values, fuel exhaustion). -/

inductive MRes (α : Type) where
  | ok (a : α)
  | err
  | undet
deriving DecidableEq

inductive Tok where
  | num (q : ℚ)
  | id (s : String)
  | plus
  | minus
  | star
  | slash
  | pct
  | dstar
  | lpar
  | rpar
  | comma
deriving DecidableEq

def natOfDigits (ds : List Char) : Nat := ds.foldl (fun a c => a * 10 + (c.toNat - 48)) 0

/-- Value of a numeric literal: integer part, fraction digits, signed
decimal exponent. -/
def numVal (ip fp : List Char) (sgn : ℤ) (ed : List Char) : ℚ :=
  qmul (qadd (natOfDigits ip : ℚ) (qdiv (natOfDigits fp : ℚ) (10 ^ fp.length)))
    (qpow 10 (sgn * (natOfDigits ed : ℤ)))

def mcons (t : Tok) : MRes (List Tok) → MRes (List Tok)
  | .ok ts => .ok (t :: ts)
  | .err => .err
  | .undet => .undet

/-- One numeric literal taken from the front of `cs` (whose first character
is a digit, or a dot followed by a digit): integer part, optional fraction,
optional signed exponent; returns the token and the remaining characters.
Legacy octal forms (a leading zero followed by more digits) are left
undetermined; a malformed exponent part is a syntax error. -/
def lexNum (cs : List Char) : MRes (Tok × List Char) :=
  let ip := List.takeWhile Char.isDigit cs
  let r1 := List.dropWhile Char.isDigit cs
  if 2 ≤ ip.length ∧ ip.head? = some '0' then .undet
  else
    let fr : List Char × List Char :=
      match r1 with
      | '.' :: t => (List.takeWhile Char.isDigit t, List.dropWhile Char.isDigit t)
      | _ => ([], r1)
    match fr.2 with
  | e :: t =>
    if e = 'e' ∨ e = 'E' then
      let st : ℤ × List Char :=
        match t with
        | '+' :: u => (1, u)
        | '-' :: u => (-1, u)
        | _ => (1, t)
      match List.takeWhile Char.isDigit st.2 with
      | [] => .err
      | ed => .ok (.num (numVal ip fr.1 st.1 ed), List.dropWhile Char.isDigit st.2)
    else .ok (.num (numVal ip fr.1 1 []), fr.2)
  | [] => .ok (.num (numVal ip fr.1 1 []), [])

/-- Lexer for the canonical string.  `++`, `--`, `//`, `/*` and a `.` that
does not start a number are left undetermined (comment syntax, member
access and update operators are outside the model); an unknown character or
a malformed exponent is a syntax error. -/
def tokGo : Nat → List Char → MRes (List Tok)
  | 0, _ => .undet
  | _ + 1, [] => .ok []
  | fuel + 1, c :: cs =>
    if jsSpace c then tokGo fuel cs
    else if c.isDigit then
      match lexNum (c :: cs) with
      | .ok (t, rest) => mcons t (tokGo fuel rest)
      | .err => .err
      | .undet => .undet
    else if c = '.' then
      match cs with
      | d :: _ =>
        if d.isDigit then
          match lexNum (c :: cs) with
          | .ok (t, rest) => mcons t (tokGo fuel rest)
          | .err => .err
          | .undet => .undet
        else .undet
      | [] => .undet
    else if c.isAlpha ∨ c = '_' then
      mcons (.id ⟨List.takeWhile wordChar (c :: cs)⟩)
        (tokGo fuel (List.dropWhile wordChar (c :: cs)))
    else if c = '+' then
      match cs with
      | '+' :: _ => .undet
      | _ => mcons .plus (tokGo fuel cs)
    else if c = '-' then
      match cs with
      | '-' :: _ => .undet
      | _ => mcons .minus (tokGo fuel cs)
    else if c = '*' then
      match cs with
      | '*' :: cs2 => mcons .dstar (tokGo fuel cs2)
      | _ => mcons .star (tokGo fuel cs)
    else if c = '/' then
      match cs with
      | '/' :: _ => .undet
      | '*' :: _ => .undet
      | _ => mcons .slash (tokGo fuel cs)
    else if c = '%' then mcons .pct (tokGo fuel cs)
    else if c = '(' then mcons .lpar (tokGo fuel cs)
    else if c = ')' then mcons .rpar (tokGo fuel cs)
    else if c = ',' then mcons .comma (tokGo fuel cs)
    else .err

def tokenize (cs : List Char) : MRes (List Tok) := tokGo (cs.length + 2) cs

/-- Abstract syntax of the accepted expression subset. -/
inductive JExpr where
  | lit (q : ℚ)
  | ref (name : String)
  | neg (e : JExpr)
  | pos (e : JExpr)
  | add (a b : JExpr)
  | sub (a b : JExpr)
  | mul (a b : JExpr)
  | div (a b : JExpr)
  | mod (a b : JExpr)
  | pw (a b : JExpr)
  | call (f : String) (args : List JExpr)
  | seq (es : List JExpr)

mutual

/-- AdditiveExpression: left-associated `+`/`-` over multiplicative. -/
def parseAdd : Nat → List Tok → MRes (JExpr × List Tok)
  | 0, _ => .undet
  | fuel + 1, ts =>
    match parseMul fuel ts with
    | .ok (e, rest) => parseAddL fuel e rest
    | .err => .err
    | .undet => .undet

def parseAddL : Nat → JExpr → List Tok → MRes (JExpr × List Tok)
  | 0, _, _ => .undet
  | fuel + 1, acc, .plus :: ts =>
    match parseMul fuel ts with
    | .ok (e, rest) => parseAddL fuel (.add acc e) rest
    | .err => .err
    | .undet => .undet
  | fuel + 1, acc, .minus :: ts =>
    match parseMul fuel ts with
    | .ok (e, rest) => parseAddL fuel (.sub acc e) rest
    | .err => .err
    | .undet => .undet
  | _ + 1, acc, ts => .ok (acc, ts)

/-- MultiplicativeExpression: left-associated `*`/`/`/`%` over
exponentiation. -/
def parseMul : Nat → List Tok → MRes (JExpr × List Tok)
  | 0, _ => .undet
  | fuel + 1, ts =>
    match parseExpo fuel ts with
    | .ok (e, rest) => parseMulL fuel e rest
    | .err => .err
    | .undet => .undet

def parseMulL : Nat → JExpr → List Tok → MRes (JExpr × List Tok)
  | 0, _, _ => .undet
  | fuel + 1, acc, .star :: ts =>
    match parseExpo fuel ts with
    | .ok (e, rest) => parseMulL fuel (.mul acc e) rest
    | .err => .err
    | .undet => .undet
  | fuel + 1, acc, .slash :: ts =>
    match parseExpo fuel ts with
    | .ok (e, rest) => parseMulL fuel (.div acc e) rest
    | .err => .err
    | .undet => .undet
  | fuel + 1, acc, .pct :: ts =>
    match parseExpo fuel ts with
    | .ok (e, rest) => parseMulL fuel (.mod acc e) rest
    | .err => .err
    | .undet => .undet
  | _ + 1, acc, ts => .ok (acc, ts)

/-- ExponentiationExpression: either a unary expression (whose operand can
never be the left side of `**`), or a primary followed by a right-associated
`**`. -/
def parseExpo : Nat → List Tok → MRes (JExpr × List Tok)
  | 0, _ => .undet
  | fuel + 1, .plus :: ts => parseUnary fuel (Tok.plus :: ts)
  | fuel + 1, .minus :: ts => parseUnary fuel (Tok.minus :: ts)
  | fuel + 1, ts =>
    match parsePrim fuel ts with
    | .ok (e, .dstar :: rest) =>
      match parseExpo fuel rest with
      | .ok (r, rest2) => .ok (.pw e r, rest2)
      | .err => .err
      | .undet => .undet
    | .ok (e, rest) => .ok (e, rest)
    | .err => .err
    | .undet => .undet

/-- UnaryExpression: unary `+`/`-` chains over a primary. -/
def parseUnary : Nat → List Tok → MRes (JExpr × List Tok)
  | 0, _ => .undet
  | fuel + 1, .plus :: ts =>
    match parseUnary fuel ts with
    | .ok (e, rest) => .ok (.pos e, rest)
    | .err => .err
    | .undet => .undet
  | fuel + 1, .minus :: ts =>
    match parseUnary fuel ts with
    | .ok (e, rest) => .ok (.neg e, rest)
    | .err => .err
    | .undet => .undet
  | fuel + 1, ts => parsePrim fuel ts

/-- Primary: numeric literal, identifier, call with comma-separated
arguments, or a parenthesized (possibly comma) expression. -/
def parsePrim : Nat → List Tok → MRes (JExpr × List Tok)
  | 0, _ => .undet
  | _ + 1, .num q :: ts => .ok (.lit q, ts)
  | fuel + 1, .id s :: .lpar :: ts =>
    (match ts with
     | .rpar :: rest => .ok (.call s [], rest)
     | _ =>
       match parseList fuel ts with
       | .ok (args, .rpar :: rest) => .ok (.call s args, rest)
       | .ok _ => .err
       | .err => .err
       | .undet => .undet)
  | _ + 1, .id s :: ts => .ok (.ref s, ts)
  | fuel + 1, .lpar :: ts =>
    (match parseList fuel ts with
     | .ok ([e], .rpar :: rest) => .ok (e, rest)
     | .ok (es, .rpar :: rest) => .ok (.seq es, rest)
     | .ok _ => .err
     | .err => .err
     | .undet => .undet)
  | _ + 1, _ => .err

/-- A nonempty comma-separated list of additive expressions. -/
def parseList : Nat → List Tok → MRes (List JExpr × List Tok)
  | 0, _ => .undet
  | fuel + 1, ts =>
    match parseAdd fuel ts with
    | .ok (e, .comma :: rest) =>
      (match parseList fuel rest with
       | .ok (es, r2) => .ok (e :: es, r2)
       | .err => .err
       | .undet => .undet)
    | .ok (e, rest) => .ok ([e], rest)
    | .err => .err
    | .undet => .undet

end

/-- Combine the outcomes of the two operands of a binary operator
(left-to-right, the left failure wins, an undetermined operand leaves the
result undetermined). -/
def evalTwo (x y : MRes JSNum) (f : JSNum → JSNum → JSNum) : MRes JSNum :=
  match x with
  | .ok a =>
    (match y with
     | .ok b => .ok (f a b)
     | .err => .err
     | .undet => .undet)
  | .err => .err
  | .undet => .undet

mutual

/-- Evaluate an expression against the namespace.  A bare function value
(`.ref` of a function name) can never contribute a finite numeric result
downstream — as a result or operand it yields a non-number or `nan`, which
the typeof/isFinite check then rejects inside the try — so it is folded to
`err`.  An identifier that is in neither the function nor the constant table
resolves through the `with` scope against the host globals and is left
undetermined. -/
def evalE (la : Option ℚ) : Nat → JExpr → MRes JSNum
  | 0, _ => .undet
  | fuel + 1, e =>
    match e with
    | .lit q => .ok (.num q)
    | .ref n =>
      (match nsFun n with
       | some _ => .err
       | none =>
         match nsConstVal la n with
         | some (some v) => .ok v
         | some none => .undet
         | none => .undet)
    | .neg a =>
      (match evalE la fuel a with
       | .ok x => .ok (jneg x)
       | .err => .err
       | .undet => .undet)
    | .pos a => evalE la fuel a
    | .add a b => evalTwo (evalE la fuel a) (evalE la fuel b) jadd
    | .sub a b => evalTwo (evalE la fuel a) (evalE la fuel b) jsub
    | .mul a b => evalTwo (evalE la fuel a) (evalE la fuel b) jmul
    | .div a b => evalTwo (evalE la fuel a) (evalE la fuel b) jdiv
    | .mod a b => evalTwo (evalE la fuel a) (evalE la fuel b) jmod
    | .pw a b =>
      (match evalE la fuel a with
       | .ok x =>
         (match evalE la fuel b with
          | .ok y =>
            (match jpow x y with
             | some v => .ok v
             | none => .undet)
          | .err => .err
          | .undet => .undet)
       | .err => .err
       | .undet => .undet)
    | .call f args =>
      (match nsFun f with
       | some fn =>
         (match evalArgs la fuel args with
          | .ok vs =>
            (match fn vs with
             | some v => .ok v
             | none => .undet)
          | .err => .err
          | .undet => .undet)
       | none =>
         match nsConstVal la f with
         | some _ => .err
         | none => .undet)
    | .seq es => evalSeq la fuel es

def evalArgs (la : Option ℚ) : Nat → List JExpr → MRes (List JSNum)
  | 0, _ => .undet
  | _ + 1, [] => .ok []
  | fuel + 1, a :: as =>
    match evalE la fuel a with
    | .ok v =>
      (match evalArgs la fuel as with
       | .ok vs => .ok (v :: vs)
       | .err => .err
       | .undet => .undet)
    | .err => .err
    | .undet => .undet

/-- A comma expression evaluates every operand and yields the last value. -/
def evalSeq (la : Option ℚ) : Nat → List JExpr → MRes JSNum
  | 0, _ => .undet
  | _ + 1, [] => .err
  | fuel + 1, [e] => evalE la fuel e
  | fuel + 1, e :: es =>
    match evalE la fuel e with
    | .ok _ => evalSeq la fuel es
    | .err => .err
    | .undet => .undet

end

/-! ## ANS substitution, the safe evaluator, rounding and compute -/

/-- Exactly strip the pattern `w` from the front of a string (the `ANS`
replace is case-sensitive). -/
def stripEq : List Char → List Char → Option (List Char)
  | [], cs => some cs
  | _ :: _, [] => none
  | p :: ps, c :: cs => if c = p then stripEq ps cs else none

/-- Fueled scanner for the case-sensitive whole-word global replace
`s.replace(/\bANS\b/g, repl)`; same structure as `rwGo`. -/
def rwcGo (w repl : List Char) : Nat → Bool → List Char → List Char
  | 0, _, _ => []
  | _ + 1, _, [] => []
  | fuel + 1, prev, c :: cs =>
    match (if prev then none else stripEq w (c :: cs)) with
    | some rest =>
      if noWordHead rest then repl ++ rwcGo w repl fuel true rest
      else c :: rwcGo w repl fuel (wordChar c) cs
    | none => c :: rwcGo w repl fuel (wordChar c) cs

/-- Smallest number of decimal digits needed after the point (at most 40),
if the rational has a terminating decimal expansion. -/
def decExpOf (den : Nat) : Option Nat := (List.range 41).find? (fun k => 10 ^ k % den = 0)

def padZeros (s : String) (k : Nat) : String := ⟨List.replicate (k - s.length) '0'⟩ ++ s

/-- `String(x)` for the modelled numbers that actually arise here: fixed
decimal notation with no trailing zeros, integers without a point.  (JS
switches to exponential notation for magnitudes at least 1e21 or below
1e-6, and runtime values are dyadic; neither regime is exercised by the
theorems below, and non-terminating rationals get a placeholder.) -/
def jsPosToString (q : ℚ) : String :=
  match decExpOf q.den with
  | some 0 => toString q.num
  | some k =>
    let t := q.num.toNat * 10 ^ k / q.den
    toString (t / 10 ^ k) ++ "." ++ padZeros (toString (t % 10 ^ k)) k
  | none => toString q.num ++ ":" ++ toString q.den

def jsNumToString (q : ℚ) : String :=
  if q < 0 then "-" ++ jsPosToString (-q) else jsPosToString q

/-- The textual last-answer substitution of `safeEval`:
`s.replace(/\bANS\b/g, String(M.ANS))` (the guarding regex test changes
nothing: replacing a pattern that does not occur is the identity). -/
def ansSubstitute (la : Option ℚ) (s : String) : String :=
  ⟨rwcGo ['A', 'N', 'S'] (jsNumToString (ansVal la)).data (s.data.length + 1) false s.data⟩

/-- The classified errors of the spec's taxonomy.  `nonFiniteResult` is the
classification the spec names for a non-finite value; the code constructs
the corresponding internal error but (see `safeEval`) never surfaces it. -/
inductive EvalErr where
  | emptyExpression
  | invalidCharacters
  | badNumberFormat
  | nonFiniteResult
  | badExpression
deriving DecidableEq

/-- Result of `safeEval`: a value, a classified error, or an outcome the
model does not determine (the input reached the evaluation step and the
model does not commit to what the host evaluation yields). -/
inductive SEResult where
  | ok (q : ℚ)
  | error (e : EvalErr)
  | undetermined
deriving DecidableEq

/-- Evaluation of the canonical (normalized, ANS-substituted) string: the
function body returns `( s )` — the string is evaluated inside one extra
pair of parentheses — and a parse that leaves tokens over is a syntax
error. -/
def evalCanonical (la : Option ℚ) (s : String) : MRes JSNum :=
  match tokenize ('(' :: s.data ++ [')']) with
  | .ok ts =>
    (match parseAdd (6 * ts.length + 8) ts with
     | .ok (e, []) => evalE la (6 * ts.length + 8) e
     | .ok _ => .err
     | .err => .err
     | .undet => .undet)
  | .err => .err
  | .undet => .undet

/-- The internal errors that can arise inside the try block of `safeEval`:
an exception from construction/evaluation, or the explicit
`throw new Error('Result not finite')` after the typeof/isFinite check. -/
inductive TryErr where
  | thrown
  | resultNotFinite
deriving DecidableEq

inductive TryOut where
  | ok (q : ℚ)
  | failed (e : TryErr)
  | undet
deriving DecidableEq

/-- The try block of `safeEval`: evaluate the canonical string inside the
namespace, then check `typeof res === 'number' && isFinite(res)`; an
infinite or `nan` result raises the internal resultNotFinite error. -/
def tryBlock (la : Option ℚ) (s : String) : TryOut :=
  match evalCanonical la s with
  | .ok (.num q) => .ok q
  | .ok _ => .failed .resultNotFinite
  | .err => .failed .thrown
  | .undet => .undet

/-- `safeEval` of src/script.js: empty check, normalization, character
allow-list, ANS substitution, double-dot check, then the try/catch around
evaluation.  The catch replaces every internal error — including the
resultNotFinite one — with the generic bad-expression error, so
`nonFiniteResult` is never returned. -/
def safeEval (la : Option ℚ) (raw : String) : SEResult :=
  if raw = "" then .error .emptyExpression
  else
    let s := normalizeExpression raw
    if ¬ isSafe s then .error .invalidCharacters
    else
      let s2 := ansSubstitute la s
      if hasDoubleDot s2.data then .error .badNumberFormat
      else
        match tryBlock la s2 with
        | .ok q => .ok q
        | .failed _ => .error .badExpression
        | .undet => .undetermined

/-- `Number.EPSILON`. -/
def epsJS : ℚ := mkRat 1 (2 ^ 52)

/-- The rounding step of `compute`:
`Math.round((result + Number.EPSILON) * 1e12) / 1e12`, with `Math.round`
being floor of the value plus one half (ties toward positive infinity). -/
def roundTo12 (q : ℚ) : ℚ :=
  qdiv ((⌊qadd (qmul (qadd q epsJS) (10 ^ 12)) (mkRat 1 2)⌋ : ℤ) : ℚ) (10 ^ 12)

/-- The state the compute step acts on: the current input line and the
last successfully computed (rounded) answer. -/
structure CalcState where
  current : String
  lastAnswer : Option ℚ
deriving DecidableEq

/-- `compute` of src/script.js, restricted to its state effect (history and
screen are display-only): an empty line is a no-op; on success the rounded
result becomes the new last answer and the new current line; on any error
the state is unchanged (the error flash touches only the display).  `none`
when the model does not determine the evaluation. -/
def compute (st : CalcState) : Option CalcState :=
  if st.current = "" then some st
  else
    match safeEval st.lastAnswer st.current with
    | .ok r => some ⟨jsNumToString (roundTo12 r), some (roundTo12 r)⟩
    | .error _ => some st
    | .undetermined => none

/-! ## Specification-side definitions used by the proofs -/

/-- ASCII-case normalisation of a string, the data the `gi` word rewrites
decide matches on. -/
def ciNormal (cs : List Char) : List Char := cs.map lowerC

/-- Fueled decomposition of a string into maximal word-character runs and
separator characters, applying `f` to each run. -/
def wmGo (f : List Char → List Char) : Nat → List Char → List Char
  | 0, _ => []
  | _ + 1, [] => []
  | fuel + 1, c :: cs =>
    if wordChar c then
      f (List.takeWhile wordChar (c :: cs)) ++ wmGo f fuel (List.dropWhile wordChar (c :: cs))
    else c :: wmGo f fuel cs

def wordMap (f : List Char → List Char) (cs : List Char) : List Char :=
  wmGo f (cs.length + 1) cs

/-- The per-word function a whole-word case-insensitive replace acts as on a
maximal word run. -/
def wordF (w repl run : List Char) : List Char :=
  if ciNormal run = ciNormal w then repl else run

/-- No percent match can end right after `a`: walking back over whitespace
from the end of `a`, the first character reached (if any) is not a
digit/dot. -/
def Blocked (a : List Char) : Prop :=
  ∀ d rest, a.reverse.dropWhile jsSpace = d :: rest → isDigitDot d = false

/-- Every `%` of `u` is blocked: the percent-rewrite scanner finds no match
anywhere in `u`. -/
def NoPct (u : List Char) : Prop := ∀ a b, u = a ++ '%' :: b → Blocked a


/-- Prev-flag-general wrapper of `rwGo` with adequate fuel. -/
def rwP (w repl : List Char) (prev : Bool) (cs : List Char) : List Char :=
  rwGo w repl (cs.length + 1) prev cs

/-- Prev-flag-general wrapper of `rwcGo` with adequate fuel. -/
def rwcP (w repl : List Char) (prev : Bool) (cs : List Char) : List Char :=
  rwcGo w repl (cs.length + 1) prev cs

/-- The four whole-word rewrite rules of the Normalizer as pattern/replacement
pairs, and their combined per-run action. -/
def piW : List Char := ['p', 'i']

def piR : List Char := ['P', 'I']

def eW : List Char := ['e']

def eR : List Char := ['E']

def lgW : List Char := ['l', 'o', 'g', '1', '0']

def lnW : List Char := ['l', 'n']

def wordG : List Char → List Char :=
  fun r => wordF lnW lnW (wordF lgW lgW (wordF eW eR (wordF piW piR r)))

/-! ## Character-level lemmas -/

theorem charEq (c d : Char) : (c = d) ↔ c.toNat = d.toNat := by
  constructor
  · intro h; rw [h]
  · intro h; exact Char.eq_of_val_eq (UInt32.toNat.inj h)

theorem charLeNat (c d : Char) : (c ≤ d) ↔ c.toNat ≤ d.toNat := Iff.rfl

set_option maxHeartbeats 1600000 in
theorem jsSpaceNat (c : Char) : jsSpace c = true ↔
    c.toNat = 32 ∨ c.toNat = 9 ∨ c.toNat = 10 ∨ c.toNat = 13 ∨ c.toNat = 11 ∨
    c.toNat = 12 ∨ c.toNat = 160 ∨ c.toNat = 5760 ∨
    (8192 ≤ c.toNat ∧ c.toNat ≤ 8202) ∨ c.toNat = 8232 ∨ c.toNat = 8233 ∨
    c.toNat = 8239 ∨ c.toNat = 8287 ∨ c.toNat = 12288 ∨ c.toNat = 65279 := by
  have h1 : (' ' ≤ c && c ≤ ' ') = true ↔ 8192 ≤ c.toNat ∧ c.toNat ≤ 8202 := by
    rw [Bool.and_eq_true, decide_eq_true_eq, decide_eq_true_eq, charLeNat, charLeNat,
      show (' '.toNat) = 8192 from by decide, show (' '.toNat) = 8202 from by decide]
  simp only [jsSpace, Bool.or_eq_true, decide_eq_true_eq, charEq, h1,
    show (' '.toNat) = 32 from by decide, show ('\t'.toNat) = 9 from by decide,
    show ('\n'.toNat) = 10 from by decide, show ('\r'.toNat) = 13 from by decide,
    show ('\x0b'.toNat) = 11 from by decide, show ('\x0c'.toNat) = 12 from by decide,
    show (' '.toNat) = 160 from by decide, show (' '.toNat) = 5760 from by decide,
    show (' '.toNat) = 8232 from by decide, show (' '.toNat) = 8233 from by decide,
    show (' '.toNat) = 8239 from by decide, show (' '.toNat) = 8287 from by decide,
    show ('　'.toNat) = 12288 from by decide, show ('﻿'.toNat) = 65279 from by decide]
  tauto

theorem isDigitNat (c : Char) : c.isDigit = true ↔ 48 ≤ c.toNat ∧ c.toNat ≤ 57 := by
  simp only [Char.isDigit, Bool.and_eq_true, decide_eq_true_eq]
  exact Iff.rfl

theorem isAlphaNat (c : Char) : c.isAlpha = true ↔
    (65 ≤ c.toNat ∧ c.toNat ≤ 90) ∨ (97 ≤ c.toNat ∧ c.toNat ≤ 122) := by
  simp only [Char.isAlpha, Char.isUpper, Char.isLower, Bool.or_eq_true, Bool.and_eq_true,
    decide_eq_true_eq]
  exact Iff.rfl

theorem isDigitDotNat (c : Char) : isDigitDot c = true ↔
    (48 ≤ c.toNat ∧ c.toNat ≤ 57) ∨ c.toNat = 46 := by
  simp only [isDigitDot, Bool.or_eq_true, decide_eq_true_eq, isDigitNat, charEq,
    show ('.'.toNat) = 46 from by decide]

theorem wordCharNat (c : Char) : wordChar c = true ↔
    (65 ≤ c.toNat ∧ c.toNat ≤ 90) ∨ (97 ≤ c.toNat ∧ c.toNat ≤ 122) ∨
    (48 ≤ c.toNat ∧ c.toNat ≤ 57) ∨ c.toNat = 95 := by
  simp only [wordChar, Bool.or_eq_true, decide_eq_true_eq, isAlphaNat, isDigitNat, charEq,
    show ('_'.toNat) = 95 from by decide]
  tauto

theorem lowerC_toNat (c : Char) : (lowerC c).toNat =
    if 65 ≤ c.toNat ∧ c.toNat ≤ 90 then c.toNat + 32 else c.toNat := by
  unfold lowerC
  split <;> rfl

theorem jsSpace_lowerC (c : Char) : jsSpace (lowerC c) = jsSpace c := by
  rw [Bool.eq_iff_iff, jsSpaceNat, jsSpaceNat, lowerC_toNat]
  by_cases h : 65 ≤ c.toNat ∧ c.toNat ≤ 90
  · rw [if_pos h]; omega
  · rw [if_neg h]

theorem isDigitDot_lowerC (c : Char) : isDigitDot (lowerC c) = isDigitDot c := by
  rw [Bool.eq_iff_iff, isDigitDotNat, isDigitDotNat, lowerC_toNat]
  by_cases h : 65 ≤ c.toNat ∧ c.toNat ≤ 90
  · rw [if_pos h]; omega
  · rw [if_neg h]

theorem wordChar_lowerC (c : Char) : wordChar (lowerC c) = wordChar c := by
  rw [Bool.eq_iff_iff, wordCharNat, wordCharNat, lowerC_toNat]
  by_cases h : 65 ≤ c.toNat ∧ c.toNat ≤ 90
  · rw [if_pos h]; omega
  · rw [if_neg h]

/-- For a non-letter target character, `lowerC` neither produces nor
destroys it. -/
theorem lowerC_eq_iff (c d : Char)
    (hd : ¬((65 ≤ d.toNat ∧ d.toNat ≤ 90) ∨ (97 ≤ d.toNat ∧ d.toNat ≤ 122))) :
    lowerC c = d ↔ c = d := by
  rw [charEq, charEq, lowerC_toNat]
  by_cases h : 65 ≤ c.toNat ∧ c.toNat ≤ 90
  · rw [if_pos h]; omega
  · rw [if_neg h]

/-! ## List lemmas and fuel elimination for the scanners -/

theorem length_dropWhile_le {α : Type} (p : α → Bool) (l : List α) :
    (l.dropWhile p).length ≤ l.length := by
  induction l with
  | nil => simp
  | cons a l ih =>
    rw [List.dropWhile_cons]
    split
    · exact le_trans ih (by simp)
    · simp

theorem dropWhile_pct_len (c : Char) (cs rest : List Char) (hc : isDigitDot c = true)
    (hm : List.dropWhile jsSpace (List.dropWhile isDigitDot (c :: cs)) = '%' :: rest) :
    rest.length < cs.length := by
  have h1 : List.dropWhile isDigitDot (c :: cs) = List.dropWhile isDigitDot cs := by
    rw [List.dropWhile_cons, if_pos hc]
  have h2 : (List.dropWhile jsSpace (List.dropWhile isDigitDot (c :: cs))).length ≤ cs.length := by
    rw [h1]
    exact le_trans (length_dropWhile_le _ _) (length_dropWhile_le _ _)
  rw [hm] at h2
  simpa using h2

theorem pctGo_congr : ∀ (f g : Nat) (cs : List Char), cs.length < f → cs.length < g →
    pctGo f cs = pctGo g cs := by
  intro f
  induction f with
  | zero => intro g cs hf; omega
  | succ f ih =>
    intro g cs hf hg
    match g, cs with
    | g + 1, [] => rfl
    | g + 1, c :: cs =>
      simp only [pctGo]
      by_cases hc : isDigitDot c
      · rw [if_pos hc, if_pos hc]
        split
        · next rest hm =>
          have hlen := dropWhile_pct_len c cs rest hc hm
          rw [ih g rest (by simp at hf; omega) (by simp at hg; omega)]
        · next =>
          rw [ih g cs (by simpa using hf) (by simpa using hg)]
      · rw [if_neg hc, if_neg hc]
        rw [ih g cs (by simpa using hf) (by simpa using hg)]

theorem percentRewrite_congr (f : Nat) (cs : List Char) (hf : cs.length < f) :
    pctGo f cs = percentRewrite cs :=
  pctGo_congr f (cs.length + 1) cs hf (by omega)

theorem percentRewrite_nil : percentRewrite [] = [] := rfl

theorem percentRewrite_cons_nodigit (c : Char) (cs : List Char) (hc : isDigitDot c = false) :
    percentRewrite (c :: cs) = c :: percentRewrite cs := by
  show pctGo ((c :: cs).length + 1) (c :: cs) = _
  simp only [List.length_cons, pctGo, hc, Bool.false_eq_true, if_false]
  rw [percentRewrite_congr _ cs (by omega)]

theorem percentRewrite_cons_match (c : Char) (cs rest : List Char) (hc : isDigitDot c = true)
    (hm : List.dropWhile jsSpace (List.dropWhile isDigitDot (c :: cs)) = '%' :: rest) :
    percentRewrite (c :: cs) =
      '(' :: (List.takeWhile isDigitDot (c :: cs) ++
        '/' :: '1' :: '0' :: '0' :: ')' :: percentRewrite rest) := by
  show pctGo ((c :: cs).length + 1) (c :: cs) = _
  simp only [List.length_cons, pctGo, hc, if_true, hm]
  rw [percentRewrite_congr _ rest (by have := dropWhile_pct_len c cs rest hc hm; omega)]

theorem percentRewrite_cons_nomatch (c : Char) (cs : List Char) (hc : isDigitDot c = true)
    (hm : ∀ rest, List.dropWhile jsSpace (List.dropWhile isDigitDot (c :: cs)) ≠ '%' :: rest) :
    percentRewrite (c :: cs) = c :: percentRewrite cs := by
  show pctGo ((c :: cs).length + 1) (c :: cs) = _
  simp only [List.length_cons, pctGo, hc, if_true]
  rw [percentRewrite_congr _ cs (by omega)]

theorem stripCI_length : ∀ (ps cs r : List Char), stripCI ps cs = some r →
    r.length + ps.length = cs.length := by
  intro ps
  induction ps with
  | nil => intro cs r h; simp [stripCI] at h; simp [h]
  | cons p ps ih =>
    intro cs r h
    cases cs with
    | nil => simp [stripCI] at h
    | cons c cs =>
      simp only [stripCI] at h
      split at h
      · have := ih cs r h
        simp [List.length_cons]
        omega
      · exact absurd h (by simp)

theorem stripCI_decomp : ∀ (ps cs r : List Char), stripCI ps cs = some r →
    ∃ pre, cs = pre ++ r ∧ pre.map lowerC = ps := by
  intro ps
  induction ps with
  | nil =>
    intro cs r h
    simp [stripCI] at h
    exact ⟨[], by simp [h]⟩
  | cons p ps ih =>
    intro cs r h
    cases cs with
    | nil => simp [stripCI] at h
    | cons c cs =>
      simp only [stripCI] at h
      split at h
      · next hp =>
        obtain ⟨pre, hpre, hmap⟩ := ih cs r h
        exact ⟨c :: pre, by simp [hpre], by simp [hmap, hp]⟩
      · exact absurd h (by simp)

theorem stripCI_of_map : ∀ (pre r : List Char), stripCI (pre.map lowerC) (pre ++ r) = some r := by
  intro pre
  induction pre with
  | nil => intro r; rfl
  | cons c pre ih => intro r; simp [stripCI, ih]

theorem rwGo_congr (w repl : List Char) (hw : w ≠ []) :
    ∀ (f g : Nat) (prev : Bool) (cs : List Char), cs.length < f → cs.length < g →
    rwGo w repl f prev cs = rwGo w repl g prev cs := by
  intro f
  induction f with
  | zero => intro g prev cs hf; omega
  | succ f ih =>
    intro g prev cs hf hg
    match g, cs with
    | g + 1, [] => rfl
    | g + 1, c :: cs =>
      simp only [rwGo]
      cases hp : (if prev = true then none else stripCI w (c :: cs)) with
      | none =>
        simp only [hp]
        rw [ih g (wordChar c) cs (by simpa using hf) (by simpa using hg)]
      | some rest =>
        simp only [hp]
        have hr : rest.length < cs.length + 1 := by
          have := stripCI_length w (c :: cs) rest (by
            by_cases h : prev
            · simp [h] at hp
            · simpa [h] using hp)
          have hwl : 1 ≤ w.length := by
            cases w with
            | nil => exact absurd rfl hw
            | cons _ _ => simp
          simp only [List.length_cons] at this
          omega
        by_cases hb : noWordHead rest
        · rw [if_pos hb, if_pos hb, ih g true rest (by simp at hf; omega) (by simp at hg; omega)]
        · rw [if_neg hb, if_neg hb, ih g (wordChar c) cs (by simpa using hf) (by simpa using hg)]

theorem rwP_congr (w repl : List Char) (hw : w ≠ []) (f : Nat) (prev : Bool)
    (cs : List Char) (hf : cs.length < f) :
    rwGo w repl f prev cs = rwP w repl prev cs :=
  rwGo_congr w repl hw f (cs.length + 1) prev cs hf (by omega)

theorem wordRw_eq_rwP (w repl cs : List Char) : wordRw w repl cs = rwP w repl false cs := rfl

theorem rwP_nil (w repl : List Char) (prev : Bool) : rwP w repl prev [] = [] := rfl

theorem rwP_cons_prev (w repl : List Char) (hw : w ≠ []) (c : Char) (cs : List Char) :
    rwP w repl true (c :: cs) = c :: rwP w repl (wordChar c) cs := by
  show rwGo w repl ((c :: cs).length + 1) true (c :: cs) = _
  simp only [List.length_cons, rwGo, if_true]
  rw [rwP_congr w repl hw _ _ cs (by omega)]

theorem rwP_cons_none (w repl : List Char) (hw : w ≠ []) (c : Char) (cs : List Char)
    (hp : stripCI w (c :: cs) = none) :
    rwP w repl false (c :: cs) = c :: rwP w repl (wordChar c) cs := by
  show rwGo w repl ((c :: cs).length + 1) false (c :: cs) = _
  simp only [List.length_cons, rwGo, Bool.false_eq_true, if_false, hp]
  rw [rwP_congr w repl hw _ _ cs (by omega)]

theorem rwP_cons_nobd (w repl : List Char) (hw : w ≠ []) (c : Char) (cs rest : List Char)
    (hp : stripCI w (c :: cs) = some rest) (hb : noWordHead rest = false) :
    rwP w repl false (c :: cs) = c :: rwP w repl (wordChar c) cs := by
  show rwGo w repl ((c :: cs).length + 1) false (c :: cs) = _
  simp only [List.length_cons, rwGo, Bool.false_eq_true, if_false, hp, hb]
  rw [rwP_congr w repl hw _ _ cs (by omega)]

theorem rwP_cons_match (w repl : List Char) (hw : w ≠ []) (c : Char) (cs rest : List Char)
    (hp : stripCI w (c :: cs) = some rest) (hb : noWordHead rest = true) :
    rwP w repl false (c :: cs) = repl ++ rwP w repl true rest := by
  have hr : rest.length < cs.length + 1 := by
    have := stripCI_length w (c :: cs) rest hp
    have hwl : 1 ≤ w.length := by
      cases w with
      | nil => exact absurd rfl hw
      | cons _ _ => simp
    simp only [List.length_cons] at this
    omega
  show rwGo w repl ((c :: cs).length + 1) false (c :: cs) = _
  simp only [List.length_cons, rwGo, Bool.false_eq_true, if_false, hp, hb, if_true]
  rw [rwP_congr w repl hw _ _ rest (by omega)]

theorem takeWhile_all_append {p : Char → Bool} : ∀ (X Y : List Char),
    (∀ a ∈ X, p a = true) → List.takeWhile p (X ++ Y) = X ++ List.takeWhile p Y := by
  intro X
  induction X with
  | nil => intro Y _; rfl
  | cons a X ih =>
    intro Y hX
    rw [List.cons_append, List.takeWhile_cons, if_pos (hX a (by simp)), ih Y (fun b hb => hX b (by simp [hb]))]
    rfl

theorem dropWhile_all_append {p : Char → Bool} : ∀ (X Y : List Char),
    (∀ a ∈ X, p a = true) → List.dropWhile p (X ++ Y) = List.dropWhile p Y := by
  intro X
  induction X with
  | nil => intro Y _; rfl
  | cons a X ih =>
    intro Y hX
    rw [List.cons_append, List.dropWhile_cons, if_pos (hX a (by simp)), ih Y (fun b hb => hX b (by simp [hb]))]

theorem dropWhile_head_false {p : Char → Bool} (l : List Char) (d : Char) (ds : List Char)
    (h : l.dropWhile p = d :: ds) : p d = false := by
  have := List.head?_dropWhile_not p l
  rw [h] at this
  exact this

theorem dropWhile_self_of_head_false {p : Char → Bool} (l : List Char)
    (h : ∀ d ds, l = d :: ds → p d = false) : List.dropWhile p l = l := by
  cases l with
  | nil => rfl
  | cons d ds => rw [List.dropWhile_cons, if_neg (by rw [h d ds rfl]; simp)]

theorem takeWhile_nil_of_head_false {p : Char → Bool} (l : List Char)
    (h : ∀ d ds, l = d :: ds → p d = false) : List.takeWhile p l = [] := by
  cases l with
  | nil => rfl
  | cons d ds => rw [List.takeWhile_cons, if_neg (by rw [h d ds rfl]; simp)]

theorem wmGo_congr (f : List Char → List Char) :
    ∀ (m g : Nat) (cs : List Char), cs.length < m → cs.length < g →
    wmGo f m cs = wmGo f g cs := by
  intro m
  induction m with
  | zero => intro g cs hm; omega
  | succ m ih =>
    intro g cs hm hg
    match g, cs with
    | g + 1, [] => rfl
    | g + 1, c :: cs =>
      simp only [wmGo]
      by_cases hc : wordChar c
      · rw [if_pos hc, if_pos hc]
        have hlen : (List.dropWhile wordChar (c :: cs)).length ≤ cs.length := by
          rw [List.dropWhile_cons, if_pos hc]
          exact length_dropWhile_le _ _
        rw [ih g _ (by simp at hm; omega) (by simp at hg; omega)]
      · rw [if_neg hc, if_neg hc, ih g cs (by simpa using hm) (by simpa using hg)]

theorem wordMap_congr (f : List Char → List Char) (m : Nat) (cs : List Char)
    (hm : cs.length < m) : wmGo f m cs = wordMap f cs :=
  wmGo_congr f m (cs.length + 1) cs hm (by omega)

theorem wordMap_nil (f : List Char → List Char) : wordMap f [] = [] := rfl

theorem wordMap_cons_sep (f : List Char → List Char) (c : Char) (cs : List Char)
    (hc : wordChar c = false) : wordMap f (c :: cs) = c :: wordMap f cs := by
  show wmGo f ((c :: cs).length + 1) (c :: cs) = _
  simp only [List.length_cons, wmGo, hc, Bool.false_eq_true, if_false]
  rw [wordMap_congr f _ cs (by omega)]

theorem wordMap_cons_word (f : List Char → List Char) (c : Char) (cs : List Char)
    (hc : wordChar c = true) :
    wordMap f (c :: cs) =
      f (List.takeWhile wordChar (c :: cs)) ++ wordMap f (List.dropWhile wordChar (c :: cs)) := by
  show wmGo f ((c :: cs).length + 1) (c :: cs) = _
  simp only [List.length_cons, wmGo, hc, if_true]
  rw [wordMap_congr f _ _ (by
    rw [List.dropWhile_cons, if_pos hc]
    have := length_dropWhile_le wordChar cs
    omega)]

theorem stripCI_none_of_nonword (w : List Char) (hw : w ≠ [])
    (hww : ∀ a ∈ w, wordChar a = true) (c : Char) (cs : List Char)
    (hc : wordChar c = false) : stripCI w (c :: cs) = none := by
  cases w with
  | nil => exact absurd rfl hw
  | cons p ps =>
    simp only [stripCI]
    rw [if_neg]
    intro hcp
    have h1 : wordChar p = true := hww p (by simp)
    rw [← hcp, wordChar_lowerC, hc] at h1
    cases h1

theorem rwP_copy_run (w repl : List Char) (hw : w ≠ []) :
    ∀ (X v : List Char), (∀ a ∈ X, wordChar a = true) →
    rwP w repl true (X ++ v) = X ++ rwP w repl true v := by
  intro X
  induction X with
  | nil => intro v _; rfl
  | cons a X ih =>
    intro v hX
    rw [List.cons_append, rwP_cons_prev w repl hw, hX a (by simp),
      ih v (fun b hb => hX b (by simp [hb])), List.cons_append]

theorem run_of_match (w : List Char) (hww : ∀ a ∈ w, wordChar a = true)
    (c : Char) (cs rest : List Char)
    (hm : stripCI w (c :: cs) = some rest) (hb : noWordHead rest = true) :
    ciNormal (List.takeWhile wordChar (c :: cs)) = w ∧
      rest = List.dropWhile wordChar (c :: cs) := by
  obtain ⟨pre, hsplit, hmap⟩ := stripCI_decomp w (c :: cs) rest hm
  have hpre : ∀ a ∈ pre, wordChar a = true := by
    intro a ha
    have h1 : lowerC a ∈ w := by rw [← hmap]; exact List.mem_map_of_mem lowerC ha
    have h2 := hww (lowerC a) h1
    rwa [wordChar_lowerC] at h2
  have hresthead : ∀ d ds, rest = d :: ds → wordChar d = false := by
    intro d ds hds
    rw [hds] at hb
    simpa [noWordHead] using hb
  constructor
  · rw [hsplit, takeWhile_all_append pre rest hpre, takeWhile_nil_of_head_false rest hresthead,
      List.append_nil]
    exact hmap
  · rw [hsplit, dropWhile_all_append pre rest hpre, dropWhile_self_of_head_false rest hresthead]

theorem match_of_run (w : List Char) (c : Char) (cs : List Char)
    (hr : ciNormal (List.takeWhile wordChar (c :: cs)) = w) :
    stripCI w (c :: cs) = some (List.dropWhile wordChar (c :: cs)) ∧
      noWordHead (List.dropWhile wordChar (c :: cs)) = true := by
  constructor
  · have h1 : stripCI ((List.takeWhile wordChar (c :: cs)).map lowerC)
        (List.takeWhile wordChar (c :: cs) ++ List.dropWhile wordChar (c :: cs)) =
        some (List.dropWhile wordChar (c :: cs)) := stripCI_of_map _ _
    rw [List.takeWhile_append_dropWhile] at h1
    rw [← hr]
    exact h1
  · cases hd : List.dropWhile wordChar (c :: cs) with
    | nil => rfl
    | cons d ds =>
      have := dropWhile_head_false (c :: cs) d ds hd
      simp [noWordHead, this]

theorem rwP_eq_wordMap (w repl : List Char) (hw : w ≠ [])
    (hww : ∀ a ∈ w, wordChar a = true) (hlw : ciNormal w = w) :
    ∀ (n : Nat) (cs : List Char), cs.length ≤ n →
    rwP w repl false cs = wordMap (wordF w repl) cs := by
  intro n
  induction n with
  | zero =>
    intro cs hcs
    have : cs = [] := List.eq_nil_of_length_eq_zero (by omega)
    subst this
    rfl
  | succ n ih =>
    intro cs hcs
    cases cs with
    | nil => rfl
    | cons c cs' =>
      by_cases hc : wordChar c = true
      case neg =>
        have hcf : wordChar c = false := by simpa using hc
        rw [rwP_cons_none w repl hw c cs' (stripCI_none_of_nonword w hw hww c cs' hcf), hcf,
          ih cs' (by simp at hcs; omega), wordMap_cons_sep _ c cs' hcf]
      case pos =>
        have hrstlen : (List.dropWhile wordChar (c :: cs')).length ≤ cs'.length := by
          rw [List.dropWhile_cons, if_pos hc]
          exact length_dropWhile_le _ _
        have htail : rwP w repl true (List.dropWhile wordChar (c :: cs')) =
            wordMap (wordF w repl) (List.dropWhile wordChar (c :: cs')) := by
          cases hrst : List.dropWhile wordChar (c :: cs') with
          | nil => rfl
          | cons d ds =>
            have hd : wordChar d = false := dropWhile_head_false _ _ _ hrst
            have hdslen : ds.length ≤ n := by
              have : (d :: ds).length ≤ cs'.length := by rw [← hrst]; exact hrstlen
              simp at this hcs
              omega
            rw [rwP_cons_prev w repl hw, hd, ih ds hdslen, wordMap_cons_sep _ d ds hd]
        by_cases hmatch : ciNormal (List.takeWhile wordChar (c :: cs')) = w
        · obtain ⟨hsp, hb⟩ := match_of_run w c cs' hmatch
          rw [rwP_cons_match w repl hw c cs' _ hsp hb, htail, wordMap_cons_word _ c cs' hc]
          have hfrun : wordF w repl (List.takeWhile wordChar (c :: cs')) = repl := by
            rw [wordF, hlw, if_pos hmatch]
          rw [hfrun]
        · have hnm : rwP w repl false (c :: cs') = c :: rwP w repl true cs' := by
            cases hsp : stripCI w (c :: cs') with
            | none => rw [rwP_cons_none w repl hw c cs' hsp, hc]
            | some rest =>
              by_cases hb : noWordHead rest = true
              · obtain ⟨hrun, _⟩ := run_of_match w hww c cs' rest hsp hb
                exact absurd hrun hmatch
              · rw [rwP_cons_nobd w repl hw c cs' rest hsp (by simpa using hb), hc]
          have hsplit : List.takeWhile wordChar cs' ++ List.dropWhile wordChar cs' = cs' :=
            List.takeWhile_append_dropWhile _ _
          have hrst2 : List.dropWhile wordChar (c :: cs') = List.dropWhile wordChar cs' := by
            rw [List.dropWhile_cons, if_pos hc]
          have hruncons : List.takeWhile wordChar (c :: cs') = c :: List.takeWhile wordChar cs' := by
            rw [List.takeWhile_cons, if_pos hc]
          have hcopy : rwP w repl true cs' =
              List.takeWhile wordChar cs' ++ rwP w repl true (List.dropWhile wordChar cs') := by
            conv_lhs => rw [← hsplit]
            exact rwP_copy_run w repl hw _ _ (fun a ha => List.mem_takeWhile_imp ha)
          rw [hnm, hcopy, ← hrst2, htail, wordMap_cons_word _ c cs' hc]
          have hfrun : wordF w repl (List.takeWhile wordChar (c :: cs')) =
              List.takeWhile wordChar (c :: cs') := by
            rw [wordF, hlw, if_neg hmatch]
          rw [hfrun, hruncons]
          simp

theorem wordF_ciNormal (w repl : List Char) (hrepl : ciNormal repl = ciNormal w)
    (r : List Char) : ciNormal (wordF w repl r) = ciNormal r := by
  rw [wordF]
  split
  · next h => rw [hrepl, h]
  · rfl

theorem wordF_run (w repl : List Char) (hrn : repl ≠ [])
    (hrw : ∀ a ∈ repl, wordChar a = true) (run : List Char) (hn : run ≠ [])
    (hall : ∀ a ∈ run, wordChar a = true) :
    wordF w repl run ≠ [] ∧ ∀ a ∈ wordF w repl run, wordChar a = true := by
  rw [wordF]
  split
  · exact ⟨hrn, hrw⟩
  · exact ⟨hn, hall⟩

theorem wordMap_ciNormal (g : List Char → List Char)
    (hg : ∀ r, ciNormal (g r) = ciNormal r) :
    ∀ (n : Nat) (cs : List Char), cs.length ≤ n → ciNormal (wordMap g cs) = ciNormal cs := by
  intro n
  induction n with
  | zero =>
    intro cs hcs
    have : cs = [] := List.eq_nil_of_length_eq_zero (by omega)
    subst this
    rfl
  | succ n ih =>
    intro cs hcs
    cases cs with
    | nil => rfl
    | cons c cs' =>
      by_cases hc : wordChar c = true
      · rw [wordMap_cons_word _ c cs' hc]
        have h1 : (List.dropWhile wordChar (c :: cs')).length ≤ n := by
          rw [List.dropWhile_cons, if_pos hc]
          have := length_dropWhile_le wordChar cs'
          simp at hcs
          omega
        calc ciNormal (g (List.takeWhile wordChar (c :: cs')) ++
                wordMap g (List.dropWhile wordChar (c :: cs')))
            = ciNormal (g (List.takeWhile wordChar (c :: cs'))) ++
                ciNormal (wordMap g (List.dropWhile wordChar (c :: cs'))) := by
              simp [ciNormal]
          _ = ciNormal (List.takeWhile wordChar (c :: cs')) ++
                ciNormal (List.dropWhile wordChar (c :: cs')) := by
              rw [hg, ih _ h1]
          _ = ciNormal (c :: cs') := by
              rw [ciNormal, ciNormal, ← List.map_append, List.takeWhile_append_dropWhile]
              rfl
      · have hcf : wordChar c = false := by simpa using hc
        rw [wordMap_cons_sep _ c cs' hcf]
        show lowerC c :: ciNormal (wordMap g cs') = lowerC c :: ciNormal cs'
        rw [ih cs' (by simp at hcs; omega)]

theorem wordMap_comp (f g : List Char → List Char)
    (hg : ∀ run, run ≠ [] → (∀ a ∈ run, wordChar a = true) →
      g run ≠ [] ∧ ∀ a ∈ g run, wordChar a = true) :
    ∀ (n : Nat) (cs : List Char), cs.length ≤ n →
    wordMap f (wordMap g cs) = wordMap (fun r => f (g r)) cs := by
  intro n
  induction n with
  | zero =>
    intro cs hcs
    have : cs = [] := List.eq_nil_of_length_eq_zero (by omega)
    subst this
    rfl
  | succ n ih =>
    intro cs hcs
    cases cs with
    | nil => rfl
    | cons c cs' =>
      by_cases hc : wordChar c = true
      · have hrun := hg (List.takeWhile wordChar (c :: cs'))
          (by rw [List.takeWhile_cons, if_pos hc]; simp)
          (fun a ha => List.mem_takeWhile_imp ha)
        have hrstlen : (List.dropWhile wordChar (c :: cs')).length ≤ n := by
          rw [List.dropWhile_cons, if_pos hc]
          have := length_dropWhile_le wordChar cs'
          simp at hcs
          omega
        have hvhead : ∀ d ds, wordMap g (List.dropWhile wordChar (c :: cs')) = d :: ds →
            wordChar d = false := by
          intro d ds hds
          cases hrst : List.dropWhile wordChar (c :: cs') with
          | nil => rw [hrst] at hds; cases hds
          | cons e es =>
            have he : wordChar e = false := dropWhile_head_false _ _ _ hrst
            rw [hrst, wordMap_cons_sep _ e es he] at hds
            cases hds
            exact he
        rw [wordMap_cons_word _ c cs' hc]
        cases hgr : g (List.takeWhile wordChar (c :: cs')) with
        | nil => exact absurd hgr hrun.1
        | cons e es =>
          have hehd : wordChar e = true := by
            have := hrun.2
            rw [hgr] at this
            exact this e (by simp)
          rw [← hgr]
          have hsplit1 : List.takeWhile wordChar
              (g (List.takeWhile wordChar (c :: cs')) ++
                wordMap g (List.dropWhile wordChar (c :: cs'))) =
              g (List.takeWhile wordChar (c :: cs')) := by
            rw [takeWhile_all_append _ _ hrun.2, takeWhile_nil_of_head_false _ hvhead,
              List.append_nil]
          have hsplit2 : List.dropWhile wordChar
              (g (List.takeWhile wordChar (c :: cs')) ++
                wordMap g (List.dropWhile wordChar (c :: cs'))) =
              wordMap g (List.dropWhile wordChar (c :: cs')) := by
            rw [dropWhile_all_append _ _ hrun.2, dropWhile_self_of_head_false _ hvhead]
          have hhead : g (List.takeWhile wordChar (c :: cs')) ++
              wordMap g (List.dropWhile wordChar (c :: cs')) =
              e :: (es ++ wordMap g (List.dropWhile wordChar (c :: cs'))) := by
            rw [hgr]
            rfl
          rw [hhead, wordMap_cons_word _ e _ hehd, ← hhead, hsplit1, hsplit2,
            ih _ hrstlen, wordMap_cons_word _ c cs' hc]
      · have hcf : wordChar c = false := by simpa using hc
        rw [wordMap_cons_sep _ c cs' hcf, wordMap_cons_sep _ c (wordMap g cs') hcf,
          ih cs' (by simp at hcs; omega), wordMap_cons_sep _ c cs' hcf]

theorem normalizeExpression_data (s : String) :
    (normalizeExpression s).data =
      rwP lnW lnW false (rwP lgW lgW false (rwP eW eR false (rwP piW piR false
        (caretRewrite (percentRewrite (unicodeOps s.data)))))) := rfl

theorem wordPart_eq (u : List Char) :
    rwP lnW lnW false (rwP lgW lgW false (rwP eW eR false (rwP piW piR false u))) =
      wordMap wordG u := by
  have hpi := rwP_eq_wordMap piW piR (by decide) (by decide) (by decide)
  have he := rwP_eq_wordMap eW eR (by decide) (by decide) (by decide)
  have hlg := rwP_eq_wordMap lgW lgW (by decide) (by decide) (by decide)
  have hln := rwP_eq_wordMap lnW lnW (by decide) (by decide) (by decide)
  have gpi : ∀ run, run ≠ [] → (∀ a ∈ run, wordChar a = true) →
      wordF piW piR run ≠ [] ∧ ∀ a ∈ wordF piW piR run, wordChar a = true :=
    fun run hn hall => wordF_run piW piR (by decide) (by decide) run hn hall
  have ge : ∀ run, run ≠ [] → (∀ a ∈ run, wordChar a = true) →
      wordF eW eR run ≠ [] ∧ ∀ a ∈ wordF eW eR run, wordChar a = true :=
    fun run hn hall => wordF_run eW eR (by decide) (by decide) run hn hall
  have glg : ∀ run, run ≠ [] → (∀ a ∈ run, wordChar a = true) →
      wordF lgW lgW run ≠ [] ∧ ∀ a ∈ wordF lgW lgW run, wordChar a = true :=
    fun run hn hall => wordF_run lgW lgW (by decide) (by decide) run hn hall
  have gep : ∀ run, run ≠ [] → (∀ a ∈ run, wordChar a = true) →
      (fun r => wordF eW eR (wordF piW piR r)) run ≠ [] ∧
        ∀ a ∈ (fun r => wordF eW eR (wordF piW piR r)) run, wordChar a = true := by
    intro run hn hall
    have h1 := gpi run hn hall
    exact ge _ h1.1 h1.2
  have glge : ∀ run, run ≠ [] → (∀ a ∈ run, wordChar a = true) →
      (fun r => wordF lgW lgW (wordF eW eR (wordF piW piR r))) run ≠ [] ∧
        ∀ a ∈ (fun r => wordF lgW lgW (wordF eW eR (wordF piW piR r))) run,
          wordChar a = true := by
    intro run hn hall
    have h1 := gep run hn hall
    exact glg _ h1.1 h1.2
  rw [hpi u.length u le_rfl]
  rw [he _ _ le_rfl]
  rw [wordMap_comp (wordF eW eR) (wordF piW piR) gpi _ _ le_rfl]
  rw [hlg _ _ le_rfl]
  rw [wordMap_comp (wordF lgW lgW) (fun r => wordF eW eR (wordF piW piR r)) gep _ _ le_rfl]
  rw [hln _ _ le_rfl]
  rw [wordMap_comp (wordF lnW lnW) (fun r => wordF lgW lgW (wordF eW eR (wordF piW piR r)))
    glge _ _ le_rfl]
  rfl

theorem wordG_ciNormal (r : List Char) : ciNormal (wordG r) = ciNormal r := by
  rw [wordG, wordF_ciNormal lnW lnW (by decide), wordF_ciNormal lgW lgW (by decide),
    wordF_ciNormal eW eR (by decide), wordF_ciNormal piW piR (by decide)]

theorem wordG_run (run : List Char) (hn : run ≠ []) (hall : ∀ a ∈ run, wordChar a = true) :
    wordG run ≠ [] ∧ ∀ a ∈ wordG run, wordChar a = true := by
  have h1 := wordF_run piW piR (by decide) (by decide) run hn hall
  have h2 := wordF_run eW eR (by decide) (by decide) _ h1.1 h1.2
  have h3 := wordF_run lgW lgW (by decide) (by decide) _ h2.1 h2.2
  exact wordF_run lnW lnW (by decide) (by decide) _ h3.1 h3.2

theorem wordG_fix_pi (r : List Char) : wordF piW piR (wordG r) = wordG r := by
  by_cases h : ciNormal r = ciNormal piW
  · have hG : wordG r = piR := by
      rw [wordG, show wordF piW piR r = piR from by rw [wordF, if_pos h]]
      rw [show wordF eW eR piR = piR from by rw [wordF, if_neg (by decide)]]
      rw [show wordF lgW lgW piR = piR from by rw [wordF, if_neg (by decide)]]
      rw [show wordF lnW lnW piR = piR from by rw [wordF, if_neg (by decide)]]
    rw [hG, wordF, if_pos (by decide)]
  · rw [wordF, if_neg (by rw [wordG_ciNormal]; exact h)]

theorem wordG_fix_e (r : List Char) : wordF eW eR (wordG r) = wordG r := by
  by_cases h : ciNormal r = ciNormal eW
  · have hG : wordG r = eR := by
      rw [wordG, show wordF piW piR r = r from by
        rw [wordF, if_neg (by rw [h]; decide)]]
      rw [show wordF eW eR r = eR from by rw [wordF, if_pos h]]
      rw [show wordF lgW lgW eR = eR from by rw [wordF, if_neg (by decide)]]
      rw [show wordF lnW lnW eR = eR from by rw [wordF, if_neg (by decide)]]
    rw [hG, wordF, if_pos (by decide)]
  · rw [wordF, if_neg (by rw [wordG_ciNormal]; exact h)]

theorem wordG_fix_lg (r : List Char) : wordF lgW lgW (wordG r) = wordG r := by
  by_cases h : ciNormal r = ciNormal lgW
  · have hG : wordG r = lgW := by
      rw [wordG, show wordF piW piR r = r from by
        rw [wordF, if_neg (by rw [h]; decide)]]
      rw [show wordF eW eR r = r from by rw [wordF, if_neg (by rw [h]; decide)]]
      rw [show wordF lgW lgW r = lgW from by rw [wordF, if_pos h]]
      rw [show wordF lnW lnW lgW = lgW from by rw [wordF, if_neg (by decide)]]
    rw [hG, wordF, if_pos (by decide)]
  · rw [wordF, if_neg (by rw [wordG_ciNormal]; exact h)]

theorem wordG_fix_ln (r : List Char) : wordF lnW lnW (wordG r) = wordG r := by
  by_cases h : ciNormal r = ciNormal lnW
  · have hG : wordG r = lnW := by
      rw [wordG, show wordF piW piR r = r from by
        rw [wordF, if_neg (by rw [h]; decide)]]
      rw [show wordF eW eR r = r from by rw [wordF, if_neg (by rw [h]; decide)]]
      rw [show wordF lgW lgW r = r from by rw [wordF, if_neg (by rw [h]; decide)]]
      rw [show wordF lnW lnW r = lnW from by rw [wordF, if_pos h]]
    rw [hG, wordF, if_pos (by decide)]
  · rw [wordF, if_neg (by rw [wordG_ciNormal]; exact h)]

theorem wordPart_fix (t : List Char) (ht : ∃ u, t = wordMap wordG u) :
    rwP lnW lnW false (rwP lgW lgW false (rwP eW eR false (rwP piW piR false t))) = t := by
  obtain ⟨u, hu⟩ := ht
  have fix1 : rwP piW piR false t = t := by
    rw [rwP_eq_wordMap piW piR (by decide) (by decide) (by decide) t.length t le_rfl, hu,
      wordMap_comp (wordF piW piR) wordG wordG_run _ _ le_rfl]
    have : (fun r => wordF piW piR (wordG r)) = wordG := funext wordG_fix_pi
    rw [this]
  have fix2 : rwP eW eR false t = t := by
    rw [rwP_eq_wordMap eW eR (by decide) (by decide) (by decide) t.length t le_rfl, hu,
      wordMap_comp (wordF eW eR) wordG wordG_run _ _ le_rfl]
    have : (fun r => wordF eW eR (wordG r)) = wordG := funext wordG_fix_e
    rw [this]
  have fix3 : rwP lgW lgW false t = t := by
    rw [rwP_eq_wordMap lgW lgW (by decide) (by decide) (by decide) t.length t le_rfl, hu,
      wordMap_comp (wordF lgW lgW) wordG wordG_run _ _ le_rfl]
    have : (fun r => wordF lgW lgW (wordG r)) = wordG := funext wordG_fix_lg
    rw [this]
  have fix4 : rwP lnW lnW false t = t := by
    rw [rwP_eq_wordMap lnW lnW (by decide) (by decide) (by decide) t.length t le_rfl, hu,
      wordMap_comp (wordF lnW lnW) wordG wordG_run _ _ le_rfl]
    have : (fun r => wordF lnW lnW (wordG r)) = wordG := funext wordG_fix_ln
    rw [this]
  rw [fix1, fix2, fix3, fix4]

/-! ## Fixed points of the character-level rules -/

theorem map_eq_self_list {f : Char → Char} : ∀ (l : List Char), (∀ x ∈ l, f x = x) →
    l.map f = l := by
  intro l
  induction l with
  | nil => intro _; rfl
  | cons a l ih =>
    intro h
    rw [List.map_cons, h a (by simp), ih (fun x hx => h x (by simp [hx]))]

theorem uniOp_no (c : Char) : uniOp c ≠ '×' ∧ uniOp c ≠ '÷' ∧ uniOp c ≠ '−' := by
  rw [uniOp]
  split_ifs with h1 h2 h3
  · exact ⟨by decide, by decide, by decide⟩
  · exact ⟨by decide, by decide, by decide⟩
  · exact ⟨by decide, by decide, by decide⟩
  · exact ⟨h1, h2, h3⟩

theorem uniOp_fix (c : Char) (h : c ≠ '×' ∧ c ≠ '÷' ∧ c ≠ '−') : uniOp c = c := by
  rw [uniOp, if_neg h.1, if_neg h.2.1, if_neg h.2.2]

theorem unicodeOps_no (u : List Char) (d : Char) (hd : d = '×' ∨ d = '÷' ∨ d = '−') :
    d ∉ unicodeOps u := by
  intro hmem
  obtain ⟨c, _, hc⟩ := List.mem_map.mp hmem
  have := uniOp_no c
  rcases hd with h | h | h <;> subst h
  · exact this.1 hc
  · exact this.2.1 hc
  · exact this.2.2 hc

theorem unicodeOps_fix (u : List Char) (h : ∀ c ∈ u, c ≠ '×' ∧ c ≠ '÷' ∧ c ≠ '−') :
    unicodeOps u = u :=
  map_eq_self_list u (fun c hc => uniOp_fix c (h c hc))

theorem caretRewrite_cons_ne (c : Char) (cs : List Char) (h : c ≠ '^') :
    caretRewrite (c :: cs) = c :: caretRewrite cs := by
  simp [caretRewrite]

theorem caretRewrite_no (u : List Char) : '^' ∉ caretRewrite u := by
  induction u with
  | nil => simp [caretRewrite]
  | cons c cs ih =>
    by_cases h : c = '^'
    · subst h
      simp only [caretRewrite]
      simp [List.mem_cons, ih]
    · rw [caretRewrite_cons_ne c cs h]
      intro hmem
      rcases List.mem_cons.mp hmem with h2 | h2
      · exact h h2.symm
      · exact ih h2

theorem caretRewrite_fix : ∀ (u : List Char), '^' ∉ u → caretRewrite u = u := by
  intro u
  induction u with
  | nil => intro _; rfl
  | cons c cs ih =>
    intro h
    have hc : c ≠ '^' := fun hc => h (by simp [hc])
    rw [caretRewrite_cons_ne c cs hc, ih (fun hm => h (by simp [hm]))]

theorem percentRewrite_subset : ∀ (n : Nat) (u : List Char), u.length ≤ n →
    ∀ d ∈ percentRewrite u, d ∈ u ∨ d ∈ ['(', '/', '1', '0', ')'] := by
  intro n
  induction n with
  | zero =>
    intro u hu
    have : u = [] := List.eq_nil_of_length_eq_zero (by omega)
    subst this
    simp [percentRewrite_nil]
  | succ n ih =>
    intro u hu d hd
    cases u with
    | nil => simp [percentRewrite_nil] at hd
    | cons c cs =>
      by_cases hc : isDigitDot c = true
      · cases hm : List.dropWhile jsSpace (List.dropWhile isDigitDot (c :: cs)) with
        | cons m rest =>
          by_cases hp : m = '%'
          · subst hp
            rw [percentRewrite_cons_match c cs rest hc hm] at hd
            rcases List.mem_cons.mp hd with h1 | h1
            · right; simp [h1]
            · rcases List.mem_append.mp h1 with h2 | h2
              · left; exact ((List.takeWhile_sublist _).mem h2)
              · rcases List.mem_cons.mp h2 with h3 | h3
                · right; simp [h3]
                · rcases List.mem_cons.mp h3 with h4 | h4
                  · right; simp [h4]
                  · rcases List.mem_cons.mp h4 with h5 | h5
                    · right; simp [h5]
                    · rcases List.mem_cons.mp h5 with h6 | h6
                      · right; simp [h6]
                      · rcases List.mem_cons.mp h6 with h7 | h7
                        · right; simp [h7]
                        · have hrest : rest.length ≤ n := by
                            have := dropWhile_pct_len c cs rest hc hm
                            simp at hu
                            omega
                          rcases ih rest hrest d h7 with h8 | h8
                          · left
                            have hsub1 : d ∈ List.dropWhile jsSpace
                                (List.dropWhile isDigitDot (c :: cs)) := by
                              rw [hm]; simp [h8]
                            exact (List.dropWhile_sublist _).mem
                              ((List.dropWhile_sublist _).mem hsub1)
                          · right; exact h8
          · have hnm : ∀ r, List.dropWhile jsSpace (List.dropWhile isDigitDot (c :: cs)) ≠
                '%' :: r := by
              intro r hr
              rw [hm] at hr
              cases hr
              exact hp rfl
            rw [percentRewrite_cons_nomatch c cs hc hnm] at hd
            rcases List.mem_cons.mp hd with h1 | h1
            · left; simp [h1]
            · rcases ih cs (by simp at hu; omega) d h1 with h2 | h2
              · left; simp [h2]
              · right; exact h2
        | nil =>
          have hnm : ∀ r, List.dropWhile jsSpace (List.dropWhile isDigitDot (c :: cs)) ≠
              '%' :: r := by
            intro r hr
            rw [hm] at hr
            cases hr
          rw [percentRewrite_cons_nomatch c cs hc hnm] at hd
          rcases List.mem_cons.mp hd with h1 | h1
          · left; simp [h1]
          · rcases ih cs (by simp at hu; omega) d h1 with h2 | h2
            · left; simp [h2]
            · right; exact h2
      · rw [percentRewrite_cons_nodigit c cs (by simpa using hc)] at hd
        rcases List.mem_cons.mp hd with h1 | h1
        · left; simp [h1]
        · rcases ih cs (by simp at hu; omega) d h1 with h2 | h2
          · left; simp [h2]
          · right; exact h2

theorem caretRewrite_subset : ∀ (u : List Char), ∀ d ∈ caretRewrite u, d ∈ u ∨ d = '*' := by
  intro u
  induction u with
  | nil => intro d hd; simp [caretRewrite] at hd
  | cons c cs ih =>
    intro d hd
    by_cases hc : c = '^'
    · subst hc
      simp only [caretRewrite] at hd
      rcases List.mem_cons.mp hd with h1 | h1
      · right; exact h1
      · rcases List.mem_cons.mp h1 with h2 | h2
        · right; exact h2
        · rcases ih d h2 with h3 | h3
          · left; simp [h3]
          · right; exact h3
    · rw [caretRewrite_cons_ne c cs hc] at hd
      rcases List.mem_cons.mp hd with h1 | h1
      · left; simp [h1]
      · rcases ih d h1 with h2 | h2
        · left; simp [h2]
        · right; exact h2

/-- Membership of a non-letter character transfers along case-insensitive
equality of strings. -/
theorem mem_of_ciNormal (u v : List Char) (h : ciNormal u = ciNormal v) (d : Char)
    (hd : ¬((65 ≤ d.toNat ∧ d.toNat ≤ 90) ∨ (97 ≤ d.toNat ∧ d.toNat ≤ 122)))
    (hmem : d ∈ u) : d ∈ v := by
  have hfix : lowerC d = d := by
    rw [charEq, lowerC_toNat, if_neg (by omega)]
  have h1 : lowerC d ∈ ciNormal u := List.mem_map_of_mem lowerC hmem
  rw [h] at h1
  obtain ⟨x, hx, hxd⟩ := List.mem_map.mp h1
  have : x = d := (lowerC_eq_iff x d hd).mp (hxd.trans hfix)
  rw [← this]
  exact hx

/-! ## The percent rule is a fixed point on normalized output -/

theorem jsSpace_not_dd (c : Char) (h : jsSpace c = true) : isDigitDot c = false := by
  rw [Bool.eq_false_iff]
  intro hdd
  have h1 := (jsSpaceNat c).mp h
  have h2 := (isDigitDotNat c).mp hdd
  omega

theorem dd_not_space (c : Char) (h : isDigitDot c = true) : jsSpace c = false := by
  rw [Bool.eq_false_iff]
  intro hsp
  have h1 := (jsSpaceNat c).mp hsp
  have h2 := (isDigitDotNat c).mp h
  omega

theorem dd_ne_pct (c : Char) (h : isDigitDot c = true) : c ≠ '%' := by
  intro he
  subst he
  cases h

theorem Blocked_nil : Blocked [] := by
  intro d rest h
  simp at h

theorem Blocked_of_cons (c : Char) (a : List Char) (h : Blocked (c :: a)) : Blocked a := by
  intro d rest heq
  apply h d (rest ++ [c])
  rw [List.reverse_cons, List.dropWhile_append, heq]
  simp

theorem Blocked_cons (c : Char) (a : List Char) (hc : isDigitDot c = false)
    (ha : Blocked a) : Blocked (c :: a) := by
  intro d rest heq
  rw [List.reverse_cons, List.dropWhile_append] at heq
  by_cases he : (List.dropWhile jsSpace a.reverse).isEmpty = true
  · rw [if_pos he] at heq
    by_cases hsp : jsSpace c = true
    · simp [hsp] at heq
    · simp [List.dropWhile_cons, hsp] at heq
      rw [← heq.1]
      exact hc
  · rw [if_neg he] at heq
    cases hdw : List.dropWhile jsSpace a.reverse with
    | nil => rw [hdw] at he; simp at he
    | cons e es =>
      rw [hdw, List.cons_append] at heq
      injection heq with h1 h2
      rw [← h1]
      exact ha e es hdw

theorem Blocked_rev_ne_nil (c : Char) (a : List Char) (hc : jsSpace c = false) :
    List.dropWhile jsSpace (c :: a).reverse ≠ [] := by
  rw [List.reverse_cons, List.dropWhile_append]
  by_cases he : (List.dropWhile jsSpace a.reverse).isEmpty = true
  · rw [if_pos he]
    simp [List.dropWhile_cons, hc]
  · rw [if_neg he]
    cases hdw : List.dropWhile jsSpace a.reverse with
    | nil => rw [hdw] at he; simp at he
    | cons e es => simp

theorem Blocked_prepend (z w : List Char) (hne : List.dropWhile jsSpace w.reverse ≠ [])
    (hw : Blocked w) : Blocked (z ++ w) := by
  intro d rest heq
  rw [List.reverse_append, List.dropWhile_append] at heq
  by_cases he : (List.dropWhile jsSpace w.reverse).isEmpty = true
  · exact absurd (by simpa using he) hne
  · rw [if_neg he] at heq
    cases hdw : List.dropWhile jsSpace w.reverse with
    | nil => exact absurd hdw hne
    | cons e es =>
      rw [hdw, List.cons_append] at heq
      injection heq with h1 h2
      rw [← h1]
      exact hw e es hdw

theorem Blocked_rparen_append (z A : List Char) (hA : Blocked A) :
    Blocked (z ++ ')' :: A) := by
  have h1 : Blocked (')' :: A) := Blocked_cons ')' A (by decide) hA
  exact Blocked_prepend z (')' :: A) (Blocked_rev_ne_nil ')' A (by decide)) h1

theorem NoPct_nil : NoPct [] := by
  intro a b h
  exact absurd h (by simp)

theorem NoPct_of_cons (c : Char) (cs : List Char) (h : NoPct (c :: cs)) : NoPct cs := by
  intro a b heq
  exact Blocked_of_cons c a (h (c :: a) b (by rw [heq]; rfl))

theorem append_pct_split : ∀ (x y A B : List Char), x ++ y = A ++ '%' :: B →
    ('%' ∈ x) ∨ ∃ A2, A = x ++ A2 ∧ y = A2 ++ '%' :: B := by
  intro x
  induction x with
  | nil =>
    intro y A B h
    right
    exact ⟨A, rfl, h⟩
  | cons d x' ih =>
    intro y A B h
    cases A with
    | nil =>
      left
      cases h
      simp
    | cons a A' =>
      rw [List.cons_append, List.cons_append] at h
      have hd : d = a := (List.cons.injEq _ _ _ _ ▸ h).1
      have ht : x' ++ y = A' ++ '%' :: B := (List.cons.injEq _ _ _ _ ▸ h).2
      rcases ih y A' B ht with h1 | ⟨A2, hA2, hy⟩
      · left; simp [h1]
      · right
        exact ⟨A2, by rw [hd, hA2, List.cons_append], hy⟩

/-- In the output of the percent rewrite, a `%` is never preceded by
whitespace only: the scanner would have consumed it (or the input already
failed the precondition). -/
theorem pct_no_ws_pct : ∀ (n : Nat) (v : List Char), v.length ≤ n →
    (∀ b, List.dropWhile jsSpace v ≠ '%' :: b) →
    ∀ X B, (∀ x ∈ X, jsSpace x = true) → percentRewrite v ≠ X ++ '%' :: B := by
  intro n
  induction n with
  | zero =>
    intro v hv _ X B _ heq
    have : v = [] := List.eq_nil_of_length_eq_zero (by omega)
    subst this
    rw [percentRewrite_nil] at heq
    exact absurd heq.symm (by simp)
  | succ n ih =>
    intro v hv hyp X B hX heq
    cases v with
    | nil =>
      rw [percentRewrite_nil] at heq
      exact absurd heq.symm (by simp)
    | cons c cs =>
      by_cases hsp : jsSpace c = true
      · have hc : isDigitDot c = false := jsSpace_not_dd c hsp
        rw [percentRewrite_cons_nodigit c cs hc] at heq
        cases X with
        | nil =>
          injection heq with h1 h2
          rw [h1] at hsp
          exact absurd hsp (by decide)
        | cons x X' =>
          rw [List.cons_append] at heq
          injection heq with h1 h2
          refine ih cs (by simp at hv; omega) ?_ X' B (fun y hy => hX y (by simp [hy])) h2
          intro b hb
          apply hyp b
          rw [List.dropWhile_cons, if_pos hsp]
          exact hb
      · have hnsp : List.dropWhile jsSpace (c :: cs) = c :: cs := by
          rw [List.dropWhile_cons, if_neg (by simp [hsp])]
        have hcp : c ≠ '%' := by
          intro h
          apply hyp cs
          rw [hnsp, h]
        by_cases hdd : isDigitDot c = true
        · cases hm : List.dropWhile jsSpace (List.dropWhile isDigitDot (c :: cs)) with
          | cons m rest =>
            by_cases hp : m = '%'
            · subst hp
              rw [percentRewrite_cons_match c cs rest hdd hm] at heq
              cases X with
              | nil =>
                injection heq with h1 _
                exact absurd h1 (by decide)
              | cons x X' =>
                rw [List.cons_append] at heq
                injection heq with h1 _
                have hxs := hX x (by simp)
                rw [← h1] at hxs
                exact absurd hxs (by decide)
            · have hnm : ∀ r, List.dropWhile jsSpace (List.dropWhile isDigitDot (c :: cs)) ≠
                  '%' :: r := by
                intro r hr
                rw [hm] at hr
                injection hr with hr1 _
                exact hp hr1
              rw [percentRewrite_cons_nomatch c cs hdd hnm] at heq
              cases X with
              | nil =>
                injection heq with h1 _
                exact absurd h1 hcp
              | cons x X' =>
                rw [List.cons_append] at heq
                injection heq with h1 _
                have hxs := hX x (by simp)
                rw [← h1] at hxs
                exact absurd hxs hsp
          | nil =>
            have hnm : ∀ r, List.dropWhile jsSpace (List.dropWhile isDigitDot (c :: cs)) ≠
                '%' :: r := by
              intro r hr
              rw [hm] at hr
              exact absurd hr.symm (by simp)
            rw [percentRewrite_cons_nomatch c cs hdd hnm] at heq
            cases X with
            | nil =>
              injection heq with h1 _
              exact absurd h1 hcp
            | cons x X' =>
              rw [List.cons_append] at heq
              injection heq with h1 _
              have hxs := hX x (by simp)
              rw [← h1] at hxs
              exact absurd hxs hsp
        · rw [percentRewrite_cons_nodigit c cs (by simpa using hdd)] at heq
          cases X with
          | nil =>
            injection heq with h1 _
            exact absurd h1 hcp
          | cons x X' =>
            rw [List.cons_append] at heq
            injection heq with h1 _
            have hxs := hX x (by simp)
            rw [← h1] at hxs
            exact absurd hxs hsp

/-- The output of the percent rewrite contains no remaining match of the
percent pattern: every surviving `%` is blocked. -/
theorem NoPct_percentRewrite : ∀ (n : Nat) (u : List Char), u.length ≤ n →
    NoPct (percentRewrite u) := by
  intro n
  induction n with
  | zero =>
    intro u hu
    have : u = [] := List.eq_nil_of_length_eq_zero (by omega)
    subst this
    rw [percentRewrite_nil]
    exact NoPct_nil
  | succ n ih =>
    intro u hu
    cases u with
    | nil => rw [percentRewrite_nil]; exact NoPct_nil
    | cons c cs =>
      by_cases hdd : isDigitDot c = true
      · by_cases hmatch : ∃ rest,
            List.dropWhile jsSpace (List.dropWhile isDigitDot (c :: cs)) = '%' :: rest
        · obtain ⟨rest, hm⟩ := hmatch
          rw [percentRewrite_cons_match c cs rest hdd hm]
          intro A B heq
          have hshape : '(' :: (List.takeWhile isDigitDot (c :: cs) ++
              '/' :: '1' :: '0' :: '0' :: ')' :: percentRewrite rest) =
              ('(' :: List.takeWhile isDigitDot (c :: cs) ++ ['/', '1', '0', '0', ')']) ++
                percentRewrite rest := by
            simp
          rw [hshape] at heq
          rcases append_pct_split _ _ A B heq with hin | ⟨A2, hA, hP⟩
          · rcases List.mem_cons.mp hin with h1 | h1
            · exact absurd h1.symm (by decide)
            · rcases List.mem_append.mp h1 with h2 | h2
              · have := List.mem_takeWhile_imp h2
                exact absurd rfl (dd_ne_pct '%' this)
              · simp at h2
          · have hrest : rest.length ≤ n := by
              have := dropWhile_pct_len c cs rest hdd hm
              simp at hu
              omega
            have hA2 : Blocked A2 := ih rest hrest A2 B hP
            rw [hA]
            have hshape2 : ('(' :: List.takeWhile isDigitDot (c :: cs) ++
                ['/', '1', '0', '0', ')']) ++ A2 =
                ('(' :: List.takeWhile isDigitDot (c :: cs) ++ ['/', '1', '0', '0']) ++
                  ')' :: A2 := by
              simp
            rw [hshape2]
            exact Blocked_rparen_append _ A2 hA2
        · push_neg at hmatch
          rw [percentRewrite_cons_nomatch c cs hdd hmatch]
          intro A B heq
          cases A with
          | nil => exact Blocked_nil
          | cons a A' =>
            rw [List.cons_append] at heq
            injection heq with h1 h2
            have hA' : Blocked A' := ih cs (by simp at hu; omega) A' B h2
            subst h1
            intro d rest2 heq2
            rw [List.reverse_cons, List.dropWhile_append] at heq2
            by_cases he : (List.dropWhile jsSpace A'.reverse).isEmpty = true
            · have hallws : ∀ x ∈ A', jsSpace x = true := by
                intro x hx
                have h3 : List.dropWhile jsSpace A'.reverse = [] := by
                  cases hdw : List.dropWhile jsSpace A'.reverse with
                  | nil => rfl
                  | cons _ _ => rw [hdw] at he; simp at he
                exact List.dropWhile_eq_nil_iff.mp h3 x (by simpa using hx)
              have hyp2 : ∀ b, List.dropWhile jsSpace cs ≠ '%' :: b := by
                intro b hb
                cases cs with
                | nil => simp at hb
                | cons e es =>
                  by_cases hde : isDigitDot e = true
                  · rw [List.dropWhile_cons, if_neg (by simp [dd_not_space e hde])] at hb
                    injection hb with hb1 _
                    exact dd_ne_pct e hde hb1
                  · apply hmatch b
                    rw [List.dropWhile_cons, if_pos hdd,
                      show List.dropWhile isDigitDot (e :: es) = e :: es from by
                        rw [List.dropWhile_cons, if_neg (by simp [hde])]]
                    exact hb
              exact absurd h2 (pct_no_ws_pct n cs (by simp at hu; omega) hyp2 A' B hallws)
            · rw [if_neg he] at heq2
              cases hdw : List.dropWhile jsSpace A'.reverse with
              | nil => rw [hdw] at he; simp at he
              | cons e es =>
                rw [hdw, List.cons_append] at heq2
                injection heq2 with h3 _
                rw [← h3]
                exact hA' e es hdw
      · rw [percentRewrite_cons_nodigit c cs (by simpa using hdd)]
        intro A B heq
        cases A with
        | nil => exact Blocked_nil
        | cons a A' =>
          rw [List.cons_append] at heq
          injection heq with h1 h2
          subst h1
          exact Blocked_cons _ A' (by simpa using hdd) (ih cs (by simp at hu; omega) A' B h2)

/-- On a string in which every `%` is blocked, the percent rewrite is the
identity. -/
theorem percentRewrite_fix : ∀ (n : Nat) (v : List Char), v.length ≤ n → NoPct v →
    percentRewrite v = v := by
  intro n
  induction n with
  | zero =>
    intro v hv _
    have : v = [] := List.eq_nil_of_length_eq_zero (by omega)
    subst this
    rfl
  | succ n ih =>
    intro v hv hnp
    cases v with
    | nil => rfl
    | cons c cs =>
      have htail := NoPct_of_cons c cs hnp
      by_cases hdd : isDigitDot c = true
      · have hnm : ∀ rest,
            List.dropWhile jsSpace (List.dropWhile isDigitDot (c :: cs)) ≠ '%' :: rest := by
          intro rest hm
          have hsplit1 : c :: cs = List.takeWhile isDigitDot (c :: cs) ++
              List.dropWhile isDigitDot (c :: cs) := (List.takeWhile_append_dropWhile _ _).symm
          have hsplit2 : List.dropWhile isDigitDot (c :: cs) =
              List.takeWhile jsSpace (List.dropWhile isDigitDot (c :: cs)) ++
                List.dropWhile jsSpace (List.dropWhile isDigitDot (c :: cs)) :=
            (List.takeWhile_append_dropWhile _ _).symm
          have hdecomp : c :: cs = (List.takeWhile isDigitDot (c :: cs) ++
              List.takeWhile jsSpace (List.dropWhile isDigitDot (c :: cs))) ++ '%' :: rest := by
            rw [List.append_assoc, ← hm, ← hsplit2, ← hsplit1]
          have hblocked := hnp _ rest hdecomp
          have hrun : List.takeWhile isDigitDot (c :: cs) = c :: List.takeWhile isDigitDot cs := by
            rw [List.takeWhile_cons, if_pos hdd]
          have hws : ∀ x ∈ List.takeWhile jsSpace (List.dropWhile isDigitDot (c :: cs)),
              jsSpace x = true := fun x hx => List.mem_takeWhile_imp hx
          have hrevdrop : List.dropWhile jsSpace
              ((List.takeWhile isDigitDot (c :: cs) ++
                List.takeWhile jsSpace (List.dropWhile isDigitDot (c :: cs))).reverse) =
              (List.takeWhile isDigitDot (c :: cs)).reverse := by
            rw [List.reverse_append, List.dropWhile_append]
            have hflush : List.dropWhile jsSpace
                (List.takeWhile jsSpace (List.dropWhile isDigitDot (c :: cs))).reverse = [] := by
              rw [List.dropWhile_eq_nil_iff]
              intro x hx
              exact hws x (by simpa using hx)
            rw [hflush]
            simp only [List.isEmpty_nil, if_true]
            apply dropWhile_self_of_head_false
            intro d ds hds
            have hdmem : d ∈ (List.takeWhile isDigitDot (c :: cs)).reverse := by
              rw [hds]; simp
            have hddd : isDigitDot d = true :=
              List.mem_takeWhile_imp (by simpa using hdmem)
            exact dd_not_space d hddd
          have hhead : (List.takeWhile isDigitDot (c :: cs)).reverse =
              (List.takeWhile isDigitDot cs).reverse ++ [c] := by
            rw [hrun]; simp
          cases hrev : (List.takeWhile isDigitDot (c :: cs)).reverse with
          | nil => rw [hhead] at hrev; exact absurd hrev (by simp)
          | cons d ds =>
            have hdmem : d ∈ List.takeWhile isDigitDot (c :: cs) := by
              have : d ∈ (List.takeWhile isDigitDot (c :: cs)).reverse := by rw [hrev]; simp
              simpa using this
            have hddd := List.mem_takeWhile_imp hdmem
            have := hblocked d ds (by rw [hrevdrop, hrev])
            rw [hddd] at this
            cases this
        rw [percentRewrite_cons_nomatch c cs hdd hnm, ih cs (by simp at hv; omega) htail]
      · rw [percentRewrite_cons_nodigit c cs (by simpa using hdd),
          ih cs (by simp at hv; omega) htail]

theorem caretRewrite_append : ∀ (x y : List Char),
    caretRewrite (x ++ y) = caretRewrite x ++ caretRewrite y := by
  intro x
  induction x with
  | nil => intro y; rfl
  | cons c cs ih =>
    intro y
    by_cases hc : c = '^'
    · subst hc
      rw [List.cons_append]
      show caretRewrite ('^' :: (cs ++ y)) = caretRewrite ('^' :: cs) ++ caretRewrite y
      simp only [caretRewrite]
      rw [ih]
      rfl
    · rw [List.cons_append, caretRewrite_cons_ne c _ hc, caretRewrite_cons_ne c cs hc, ih]
      rfl

theorem caretRewrite_reverse : ∀ (x : List Char),
    (caretRewrite x).reverse = caretRewrite x.reverse := by
  intro x
  induction x with
  | nil => rfl
  | cons c cs ih =>
    by_cases hc : c = '^'
    · subst hc
      show ('*' :: '*' :: caretRewrite cs).reverse = caretRewrite (('^' :: cs).reverse)
      rw [show ('^' :: cs).reverse = cs.reverse ++ ['^'] from by simp, caretRewrite_append]
      simp [caretRewrite, ih]
    · rw [caretRewrite_cons_ne c cs hc, List.reverse_cons, List.reverse_cons,
        caretRewrite_append, ih, caretRewrite_cons_ne c [] hc]
      rfl

theorem caretRewrite_dropWhile_ws : ∀ (x : List Char),
    List.dropWhile jsSpace (caretRewrite x) = caretRewrite (List.dropWhile jsSpace x) := by
  intro x
  induction x with
  | nil => rfl
  | cons c cs ih =>
    by_cases hc : c = '^'
    · subst hc
      have hL : List.dropWhile jsSpace ('*' :: '*' :: caretRewrite cs) =
          '*' :: '*' :: caretRewrite cs := by
        rw [List.dropWhile_cons, if_neg (by decide)]
      have hR : List.dropWhile jsSpace ('^' :: cs) = '^' :: cs := by
        rw [List.dropWhile_cons, if_neg (by decide)]
      show List.dropWhile jsSpace ('*' :: '*' :: caretRewrite cs) =
        caretRewrite (List.dropWhile jsSpace ('^' :: cs))
      rw [hL, hR]
      rfl
    · rw [caretRewrite_cons_ne c cs hc, List.dropWhile_cons, List.dropWhile_cons]
      by_cases hsp : jsSpace c = true
      · rw [if_pos hsp, if_pos hsp, ih]
      · rw [if_neg hsp, if_neg hsp, caretRewrite_cons_ne c cs hc]

theorem Blocked_caretRewrite (a : List Char) (ha : Blocked a) : Blocked (caretRewrite a) := by
  intro d rest heq
  rw [caretRewrite_reverse, caretRewrite_dropWhile_ws] at heq
  cases hy : List.dropWhile jsSpace a.reverse with
  | nil => rw [hy] at heq; cases heq
  | cons e es =>
    rw [hy] at heq
    have he : isDigitDot e = false := ha e es hy
    by_cases hce : e = '^'
    · subst hce
      have : caretRewrite ('^' :: es) = '*' :: '*' :: caretRewrite es := rfl
      rw [this] at heq
      injection heq with h1 _
      rw [← h1]
      decide
    · rw [caretRewrite_cons_ne e es hce] at heq
      injection heq with h1 _
      rw [← h1]
      exact he

theorem caretRewrite_pct_split : ∀ (v A B : List Char),
    caretRewrite v = A ++ '%' :: B →
    ∃ a b, v = a ++ '%' :: b ∧ A = caretRewrite a := by
  intro v
  induction v with
  | nil =>
    intro A B h
    exact absurd h.symm (by simp [caretRewrite])
  | cons c cs ih =>
    intro A B h
    by_cases hc : c = '^'
    · subst hc
      have hh : caretRewrite ('^' :: cs) = '*' :: '*' :: caretRewrite cs := rfl
      rw [hh] at h
      cases A with
      | nil =>
        injection h with h1 _
        exact absurd h1.symm (by decide)
      | cons a1 A1 =>
        rw [List.cons_append] at h
        injection h with h1 h2
        cases A1 with
        | nil =>
          injection h2 with h3 _
          exact absurd h3.symm (by decide)
        | cons a2 A2 =>
          rw [List.cons_append] at h2
          injection h2 with h3 h4
          obtain ⟨a, b, hv, hA⟩ := ih A2 B h4
          refine ⟨'^' :: a, b, by rw [hv, List.cons_append], ?_⟩
          rw [← h1, ← h3, hA]
          rfl
    · rw [caretRewrite_cons_ne c cs hc] at h
      cases A with
      | nil =>
        injection h with h1 h2
        exact ⟨[], cs, by rw [← h1]; rfl, rfl⟩
      | cons a1 A1 =>
        rw [List.cons_append] at h
        injection h with h1 h2
        obtain ⟨a, b, hv, hA⟩ := ih A1 B h2
        refine ⟨c :: a, b, by rw [hv, List.cons_append], ?_⟩
        rw [← h1, hA, caretRewrite_cons_ne c a hc]

theorem NoPct_caretRewrite (v : List Char) (h : NoPct v) : NoPct (caretRewrite v) := by
  intro A B heq
  obtain ⟨a, b, hv, hA⟩ := caretRewrite_pct_split v A B heq
  rw [hA]
  exact Blocked_caretRewrite a (h a b hv)

theorem dropWhile_ws_ciNormal : ∀ (x y : List Char), ciNormal x = ciNormal y →
    ciNormal (List.dropWhile jsSpace x) = ciNormal (List.dropWhile jsSpace y) := by
  intro x
  induction x with
  | nil =>
    intro y h
    cases y with
    | nil => rfl
    | cons b ys => cases h
  | cons a xs ih =>
    intro y h
    cases y with
    | nil => cases h
    | cons b ys =>
      injection h with h1 h2
      have hsp : jsSpace a = jsSpace b := by
        rw [← jsSpace_lowerC a, h1, jsSpace_lowerC b]
      rw [List.dropWhile_cons, List.dropWhile_cons]
      by_cases hb : jsSpace a = true
      · rw [if_pos hb, if_pos (by rw [← hsp]; exact hb)]
        exact ih ys h2
      · rw [if_neg hb, if_neg (by rw [← hsp]; exact hb)]
        show lowerC a :: ciNormal xs = lowerC b :: ciNormal ys
        rw [h1, show ciNormal xs = ciNormal ys from h2]

theorem Blocked_ciNormal (a a' : List Char) (h : ciNormal a = ciNormal a')
    (ha : Blocked a) : Blocked a' := by
  intro d rest heq
  have hrev : ciNormal a.reverse = ciNormal a'.reverse := by
    rw [ciNormal, ciNormal, List.map_reverse, List.map_reverse, ← ciNormal, ← ciNormal, h]
  have hdw := dropWhile_ws_ciNormal a.reverse a'.reverse hrev
  rw [heq] at hdw
  cases hx : List.dropWhile jsSpace a.reverse with
  | nil => rw [hx] at hdw; cases hdw
  | cons e es =>
    rw [hx] at hdw
    injection hdw with h1 _
    have hde := ha e es hx
    rw [← isDigitDot_lowerC e, h1, isDigitDot_lowerC d] at hde
    exact hde

theorem NoPct_ciNormal (u v : List Char) (h : ciNormal u = ciNormal v)
    (hu : NoPct u) : NoPct v := by
  intro A B heq
  have hmap : ciNormal u = ciNormal A ++ lowerC '%' :: ciNormal B := by
    rw [h, heq, ciNormal]
    simp [ciNormal]
  obtain ⟨l1, l2, hsplit, hm1, hm2⟩ := List.map_eq_append_iff.mp hmap
  cases l2 with
  | nil => cases hm2
  | cons e B' =>
    rw [List.map_cons] at hm2
    injection hm2 with h1 h2
    have he : e = '%' := by
      have : lowerC '%' = '%' := by decide
      rw [this] at h1
      exact (lowerC_eq_iff e '%' (by decide)).mp h1
    subst he
    have hbl : Blocked l1 := hu l1 B' hsplit
    exact Blocked_ciNormal l1 A hm1 hbl

/-! ## Idempotence of the Normalizer -/

theorem normalize_no_caret (s : String) : '^' ∉ (normalizeExpression s).data := by
  rw [normalizeExpression_data, wordPart_eq]
  intro hmem
  have h1 : ciNormal (wordMap wordG (caretRewrite (percentRewrite (unicodeOps s.data)))) =
      ciNormal (caretRewrite (percentRewrite (unicodeOps s.data))) :=
    wordMap_ciNormal wordG wordG_ciNormal _ _ le_rfl
  have h2 : '^' ∈ caretRewrite (percentRewrite (unicodeOps s.data)) :=
    mem_of_ciNormal _ _ h1 '^' (by decide) hmem
  exact caretRewrite_no _ h2

theorem normalize_no_uni (s : String) (d : Char) (hd : d = '×' ∨ d = '÷' ∨ d = '−') :
    d ∉ (normalizeExpression s).data := by
  rw [normalizeExpression_data, wordPart_eq]
  intro hmem
  have h1 : ciNormal (wordMap wordG (caretRewrite (percentRewrite (unicodeOps s.data)))) =
      ciNormal (caretRewrite (percentRewrite (unicodeOps s.data))) :=
    wordMap_ciNormal wordG wordG_ciNormal _ _ le_rfl
  have hdl : ¬((65 ≤ d.toNat ∧ d.toNat ≤ 90) ∨ (97 ≤ d.toNat ∧ d.toNat ≤ 122)) := by
    rcases hd with h | h | h <;> subst h <;> decide
  have h2 : d ∈ caretRewrite (percentRewrite (unicodeOps s.data)) :=
    mem_of_ciNormal _ _ h1 d hdl hmem
  rcases caretRewrite_subset _ d h2 with h3 | h3
  · rcases percentRewrite_subset (unicodeOps s.data).length _ le_rfl d h3 with h4 | h4
    · exact unicodeOps_no s.data d hd h4
    · rcases hd with h | h | h <;> subst h <;> simp at h4
  · rcases hd with h | h | h <;> subst h <;> cases h3
  
theorem normalize_NoPct (s : String) : NoPct (normalizeExpression s).data := by
  rw [normalizeExpression_data, wordPart_eq]
  have h1 : ciNormal (wordMap wordG (caretRewrite (percentRewrite (unicodeOps s.data)))) =
      ciNormal (caretRewrite (percentRewrite (unicodeOps s.data))) :=
    wordMap_ciNormal wordG wordG_ciNormal _ _ le_rfl
  refine NoPct_ciNormal _ _ h1.symm ?_
  exact NoPct_caretRewrite _ (NoPct_percentRewrite (unicodeOps s.data).length _ le_rfl)

/-! ## Claim theorems -/

/-- C7: the Normalizer is a pure total function (it is a Lean function, so
purity, determinism and totality hold by construction), and it is
idempotent: normalizing the output of normalization returns it unchanged,
for every input string. -/
theorem C7_normalizer_total_idempotent :
    ∀ s : String, normalizeExpression (normalizeExpression s) = normalizeExpression s := by
  intro s
  have huni : unicodeOps (normalizeExpression s).data = (normalizeExpression s).data := by
    refine unicodeOps_fix _ (fun c hc => ⟨?_, ?_, ?_⟩)
    · intro h
      exact normalize_no_uni s '×' (by simp) (h ▸ hc)
    · intro h
      exact normalize_no_uni s '÷' (by simp) (h ▸ hc)
    · intro h
      exact normalize_no_uni s '−' (by simp) (h ▸ hc)
  have hpct : percentRewrite (normalizeExpression s).data = (normalizeExpression s).data :=
    percentRewrite_fix (normalizeExpression s).data.length _ le_rfl (normalize_NoPct s)
  have hcar : caretRewrite (normalizeExpression s).data = (normalizeExpression s).data :=
    caretRewrite_fix _ (normalize_no_caret s)
  have hword : rwP lnW lnW false (rwP lgW lgW false (rwP eW eR false (rwP piW piR false
      (normalizeExpression s).data))) = (normalizeExpression s).data := by
    have hdata : (normalizeExpression s).data =
        wordMap wordG (caretRewrite (percentRewrite (unicodeOps s.data))) := by
      rw [normalizeExpression_data, wordPart_eq]
    rw [hdata]
    exact wordPart_fix _ ⟨_, rfl⟩
  apply String.ext
  rw [normalizeExpression_data (normalizeExpression s), huni, hpct, hcar]
  exact hword

/-! ## Bridges between the kernel-evaluable operations and the field
operations on ℚ -/

theorem qadd_eq (a b : ℚ) : qadd a b = a + b := by
  have ha : (a.den : ℚ) ≠ 0 := Nat.cast_ne_zero.mpr a.den_nz
  have hb : (b.den : ℚ) ≠ 0 := Nat.cast_ne_zero.mpr b.den_nz
  rw [qadd, Rat.divInt_eq_div]
  push_cast
  conv_rhs => rw [← Rat.num_div_den a, ← Rat.num_div_den b, div_add_div _ _ ha hb]
  ring_nf

theorem qmul_eq (a b : ℚ) : qmul a b = a * b := by
  have ha : (a.den : ℚ) ≠ 0 := Nat.cast_ne_zero.mpr a.den_nz
  have hb : (b.den : ℚ) ≠ 0 := Nat.cast_ne_zero.mpr b.den_nz
  rw [qmul, Rat.divInt_eq_div]
  push_cast
  conv_rhs => rw [← Rat.num_div_den a, ← Rat.num_div_den b, div_mul_div_comm]

theorem qsub_eq (a b : ℚ) : qsub a b = a - b := by
  rw [qsub, qadd_eq, ← sub_eq_add_neg]

theorem qdiv_eq (a b : ℚ) : qdiv a b = a / b := by
  by_cases hb : b = 0
  · subst hb
    rw [qdiv]
    simp
  · have ha : (a.den : ℚ) ≠ 0 := Nat.cast_ne_zero.mpr a.den_nz
    have hbd : (b.den : ℚ) ≠ 0 := Nat.cast_ne_zero.mpr b.den_nz
    have hbn : (b.num : ℚ) ≠ 0 := by
      simp only [ne_eq, Int.cast_eq_zero]
      exact Rat.num_ne_zero.mpr hb
    rw [qdiv, Rat.divInt_eq_div]
    push_cast
    conv_rhs => rw [← Rat.num_div_den a, ← Rat.num_div_den b,
      div_div_eq_mul_div, div_mul_eq_mul_div, div_div]

theorem qpow_eq (a : ℚ) : ∀ z : ℤ, qpow a z = a ^ z := by
  intro z
  match z with
  | .ofNat n => rw [qpow, Int.ofNat_eq_coe, zpow_natCast]
  | .negSucc n => rw [qpow, qdiv_eq, zpow_negSucc, one_div]

theorem mkRat_half : mkRat 1 2 = (1 : ℚ) / 2 := by
  rw [Rat.mkRat_eq_div]
  norm_num

theorem epsJS_eq : epsJS = 1 / 2 ^ 52 := by
  rw [epsJS, Rat.mkRat_eq_div]
  norm_num

theorem roundTo12_eq (q : ℚ) :
    roundTo12 q = ((⌊(q + epsJS) * 10 ^ 12 + 1 / 2⌋ : ℤ) : ℚ) / 10 ^ 12 := by
  rw [roundTo12, qdiv_eq, qadd_eq, qmul_eq, qadd_eq, mkRat_half]

/-! ## Step lemmas for the case-sensitive ANS scanner -/

theorem stripEq_length : ∀ (ps cs r : List Char), stripEq ps cs = some r →
    r.length + ps.length = cs.length := by
  intro ps
  induction ps with
  | nil => intro cs r h; simp [stripEq] at h; simp [h]
  | cons p ps ih =>
    intro cs r h
    cases cs with
    | nil => simp [stripEq] at h
    | cons c cs =>
      simp only [stripEq] at h
      split at h
      · have := ih cs r h
        simp [List.length_cons]
        omega
      · exact absurd h (by simp)

theorem stripEq_self : ∀ (w t : List Char), stripEq w (w ++ t) = some t := by
  intro w
  induction w with
  | nil => intro t; rfl
  | cons c w ih => intro t; simp [stripEq, ih]

theorem rwcGo_congr (w repl : List Char) (hw : w ≠ []) :
    ∀ (f g : Nat) (prev : Bool) (cs : List Char), cs.length < f → cs.length < g →
    rwcGo w repl f prev cs = rwcGo w repl g prev cs := by
  intro f
  induction f with
  | zero => intro g prev cs hf; omega
  | succ f ih =>
    intro g prev cs hf hg
    match g, cs with
    | g + 1, [] => rfl
    | g + 1, c :: cs =>
      simp only [rwcGo]
      cases hp : (if prev = true then none else stripEq w (c :: cs)) with
      | none =>
        simp only [hp]
        rw [ih g (wordChar c) cs (by simpa using hf) (by simpa using hg)]
      | some rest =>
        simp only [hp]
        have hr : rest.length < cs.length + 1 := by
          have := stripEq_length w (c :: cs) rest (by
            by_cases h : prev
            · simp [h] at hp
            · simpa [h] using hp)
          have hwl : 1 ≤ w.length := by
            cases w with
            | nil => exact absurd rfl hw
            | cons _ _ => simp
          simp only [List.length_cons] at this
          omega
        by_cases hb : noWordHead rest
        · rw [if_pos hb, if_pos hb, ih g true rest (by simp at hf; omega) (by simp at hg; omega)]
        · rw [if_neg hb, if_neg hb, ih g (wordChar c) cs (by simpa using hf) (by simpa using hg)]

theorem rwcP_match (w repl : List Char) (hw : w ≠ []) (t : List Char)
    (hb : noWordHead t = true) :
    rwcP w repl false (w ++ t) = repl ++ rwcP w repl true t := by
  cases w with
  | nil => exact absurd rfl hw
  | cons c w' =>
    show rwcGo (c :: w') repl ((c :: w' ++ t).length + 1) false (c :: w' ++ t) = _
    have hlen : (c :: w' ++ t).length + 1 = (w' ++ t).length + 1 + 1 := by simp
    rw [hlen]
    simp only [rwcGo, Bool.false_eq_true, if_false]
    rw [show stripEq (c :: w') (c :: w'.append t) = some t from stripEq_self (c :: w') t]
    simp only [hb, if_true]
    rw [rwcGo_congr (c :: w') repl hw _ (t.length + 1) true t (by simp; omega) (by omega)]
    rfl

/-- A maximal digit/dot run followed by `%` is rewritten to the
parenthesized division by 100, in any right context. -/
theorem percentRewrite_run (run t : List Char) (hne : run ≠ [])
    (hall : ∀ a ∈ run, isDigitDot a = true) :
    percentRewrite (run ++ '%' :: t) =
      '(' :: (run ++ '/' :: '1' :: '0' :: '0' :: ')' :: percentRewrite t) := by
  match run, hne with
  | c :: cs, _ =>
    have hc : isDigitDot c = true := hall c (by simp)
    have hin : List.dropWhile isDigitDot ('%' :: t) = '%' :: t := by
      rw [List.dropWhile_cons, if_neg (by decide)]
    have hout : List.dropWhile jsSpace ('%' :: t) = '%' :: t := by
      rw [List.dropWhile_cons, if_neg (by decide)]
    have h0 : List.takeWhile isDigitDot ('%' :: t) = [] := by
      rw [List.takeWhile_cons, if_neg (by decide)]
    have hm : List.dropWhile jsSpace
        (List.dropWhile isDigitDot (c :: (cs ++ '%' :: t))) = '%' :: t := by
      rw [← List.cons_append, dropWhile_all_append (c :: cs) ('%' :: t) hall, hin, hout]
    have htk : List.takeWhile isDigitDot (c :: (cs ++ '%' :: t)) = c :: cs := by
      rw [← List.cons_append, takeWhile_all_append (c :: cs) ('%' :: t) hall, h0,
        List.append_nil]
    rw [List.cons_append, percentRewrite_cons_match c (cs ++ '%' :: t) t hc hm, htk]

/-! ## Claim theorems (continued) -/

/-- C1 counterexample: the claimed behavior that `evaluate("alert(1)")` fails
with InvalidCharacters is false — letters pass the character allow-list, so
the string reaches the evaluation step. -/
theorem C1_counterexample :
    safeEval none "alert(1)" ≠ .error .invalidCharacters := by decide

/-- C1 (amended): any non-empty input whose normalized form fails the
character allow-list is rejected with InvalidCharacters before evaluation;
but `"alert(1)"` consists entirely of allow-listed characters, so it passes
the allow-list and reaches the evaluation step (whose host-global lookup the
model does not determine) instead of failing with InvalidCharacters. -/
theorem C1_allowlist_amended :
    (∀ (la : Option ℚ) (raw : String), raw ≠ "" →
      isSafe (normalizeExpression raw) = false →
      safeEval la raw = .error .invalidCharacters) ∧
    isSafe (normalizeExpression "alert(1)") = true ∧
    safeEval none "alert(1)" = .undetermined := by
  refine ⟨fun la raw h1 h2 => ?_, by decide, by decide⟩
  simp [safeEval, h1, h2]

/-- C1 witness: a concrete rejected input, `"2#2"`. -/
theorem C1_witness : safeEval none "2#2" = .error .invalidCharacters :=
  C1_allowlist_amended.1 none "2#2" (by decide) (by decide)

/-- C2 counterexample: `evaluate("1/0")` does not fail with NonFiniteResult. -/
theorem C2_counterexample :
    safeEval none "1/0" ≠ .error .nonFiniteResult := by decide

/-- C2 (amended): a non-finite evaluation result (infinity or NaN) is thrown
as the internal Result-not-finite error inside the try block, but the catch
converts every internal error into the generic BadExpression classification,
so `"1/0"` and `"sqrt(-1)"` fail with BadExpression, not NonFiniteResult. -/
theorem C2_nonfinite_amended :
    (∀ (la : Option ℚ) (raw : String) (v : JSNum),
      raw ≠ "" →
      isSafe (normalizeExpression raw) = true →
      hasDoubleDot (ansSubstitute la (normalizeExpression raw)).data = false →
      evalCanonical la (ansSubstitute la (normalizeExpression raw)) = .ok v →
      (v = .inf ∨ v = .negInf ∨ v = .nan) →
      safeEval la raw = .error .badExpression) ∧
    tryBlock none (ansSubstitute none (normalizeExpression "1/0")) =
      .failed .resultNotFinite ∧
    safeEval none "1/0" = .error .badExpression ∧
    safeEval none "sqrt(-1)" = .error .badExpression := by
  refine ⟨fun la raw v h1 h2 h3 hv hnf => ?_, by decide, by decide, by decide⟩
  rcases hnf with h | h | h <;> subst h <;> simp [safeEval, h1, h2, h3, tryBlock, hv]

/-- C2 witness: the universal part applied at `"1/0"`, whose canonical
evaluation is determined to be positive infinity. -/
theorem C2_witness : safeEval none "1/0" = .error .badExpression :=
  C2_nonfinite_amended.1 none "1/0" .inf (by decide) (by decide) (by decide)
    (by decide) (Or.inl rfl)

/-- C3: LastAnswer write discipline — on any classified error the state is
unchanged, and on success the result rounded to 12 decimals becomes both the
new display line and the new LastAnswer. -/
theorem C3_last_answer_discipline :
    ∀ st : CalcState,
      (∀ e, safeEval st.lastAnswer st.current = .error e → compute st = some st) ∧
      (∀ r, safeEval st.lastAnswer st.current = .ok r →
        compute st = some ⟨jsNumToString (roundTo12 r), some (roundTo12 r)⟩) := by
  intro st
  constructor
  · intro e he
    by_cases hc : st.current = ""
    · simp [compute, hc]
    · simp [compute, hc, he]
  · intro r hr
    by_cases hc : st.current = ""
    · rw [hc] at hr
      simp [safeEval] at hr
    · simp [compute, hc, hr]

/-- C3 witness: a failing computation leaves the state unchanged, a
successful one installs the rounded result. -/
theorem C3_witness :
    compute ⟨"1/0", some 3⟩ = some ⟨"1/0", some 3⟩ ∧
    compute ⟨"2+2", none⟩ =
      some ⟨jsNumToString (roundTo12 4), some (roundTo12 4)⟩ :=
  ⟨(C3_last_answer_discipline ⟨"1/0", some 3⟩).1 .badExpression (by decide),
   (C3_last_answer_discipline ⟨"2+2", none⟩).2 4 (by decide)⟩

/-- C4: the whole-word token ANS at the head of the string is textually
replaced by the numeric literal of the current LastAnswer, which is 0 when
none has been computed yet; and the concrete chain: `3+4` evaluates to 7,
compute installs 7 as LastAnswer, and `ANS*2` then evaluates to 14. -/
theorem C4_ans_substitution :
    (∀ (la : Option ℚ) (t : List Char), noWordHead t = true →
      (ansSubstitute la ⟨'A' :: 'N' :: 'S' :: t⟩).data =
        (jsNumToString (ansVal la)).data ++
          rwcP ['A', 'N', 'S'] (jsNumToString (ansVal la)).data true t) ∧
    ansVal none = 0 ∧ (∀ q : ℚ, ansVal (some q) = q) ∧
    safeEval none "3+4" = .ok 7 ∧
    compute ⟨"3+4", none⟩ = some ⟨"7", some 7⟩ ∧
    safeEval (some 7) "ANS*2" = .ok 14 := by
  refine ⟨fun la t ht => ?_, rfl, fun q => rfl, by decide, by decide, by decide⟩
  exact rwcP_match ['A', 'N', 'S'] (jsNumToString (ansVal la)).data (by simp) t ht

/-- C4 witness: the substitution lemma applied to `ANS*2` with LastAnswer 7. -/
theorem C4_witness :
    (ansSubstitute (some 7) ⟨'A' :: 'N' :: 'S' :: ['*', '2']⟩).data =
      (jsNumToString (ansVal (some 7))).data ++
        rwcP ['A', 'N', 'S'] (jsNumToString (ansVal (some 7))).data true ['*', '2'] :=
  C4_ans_substitution.1 (some 7) ['*', '2'] (by decide)

/-- C5: the caret is rewritten to the exponentiation operator token, and no
caret survives normalization; `2^3` evaluates to 8 and `(2+1)^3` to 27. -/
theorem C5_caret_power :
    safeEval none "2^3" = .ok 8 ∧ safeEval none "(2+1)^3" = .ok 27 ∧
    normalizeExpression "2^3" = "2**3" ∧
    ∀ s : String, '^' ∉ (normalizeExpression s).data :=
  ⟨by decide, by decide, by decide, normalize_no_caret⟩

/-- C6: every run of digit/dot characters immediately followed by `%` is
rewritten to a parenthesized division by 100, and `50%` evaluates to 0.5. -/
theorem C6_percent_div100 :
    (∀ (run t : List Char), run ≠ [] → (∀ a ∈ run, isDigitDot a = true) →
      percentRewrite (run ++ '%' :: t) =
        '(' :: (run ++ '/' :: '1' :: '0' :: '0' :: ')' :: percentRewrite t)) ∧
    normalizeExpression "50%" = "(50/100)" ∧
    safeEval none "50%" = .ok (1 / 2) := by
  refine ⟨percentRewrite_run, by decide, ?_⟩
  rw [show (1 / 2 : ℚ) = mkRat 1 2 from mkRat_half.symm]
  decide

/-- C6 witness: the run rewrite applied to the run `50` with empty tail. -/
theorem C6_witness :
    percentRewrite (['5', '0'] ++ '%' :: []) =
      '(' :: (['5', '0'] ++ '/' :: '1' :: '0' :: '0' :: ')' :: percentRewrite []) :=
  C6_percent_div100.1 ['5', '0'] [] (by decide) (by decide)

/-- C8: rounding to 12 decimals always yields an integer multiple of
10^-12, and the rounding step is stable: re-rounding an already-rounded
value returns it unchanged. -/
theorem C8_rounding_stable :
    (∀ q : ℚ, ∃ k : ℤ, roundTo12 q = (k : ℚ) / 10 ^ 12) ∧
    (∀ q : ℚ, roundTo12 (roundTo12 q) = roundTo12 q) := by
  have key : ∀ k : ℤ, roundTo12 ((k : ℚ) / 10 ^ 12) = (k : ℚ) / 10 ^ 12 := by
    intro k
    rw [roundTo12_eq]
    have h10 : ((10 : ℚ) ^ 12) ≠ 0 := by norm_num
    have hsum : ((k : ℚ) / 10 ^ 12 + epsJS) * 10 ^ 12 + 1 / 2
        = (k : ℚ) + (epsJS * 10 ^ 12 + 1 / 2) := by
      rw [add_mul, div_mul_cancel₀ _ h10, add_assoc]
    have hc0 : ⌊(epsJS * 10 ^ 12 + 1 / 2 : ℚ)⌋ = 0 := by
      rw [epsJS_eq, Int.floor_eq_zero_iff, Set.mem_Ico]
      refine ⟨by norm_num, by norm_num⟩
    rw [hsum, Int.floor_int_add, hc0, add_zero]
  exact ⟨fun q => ⟨⌊(q + epsJS) * 10 ^ 12 + 1 / 2⌋, roundTo12_eq q⟩,
    fun q => by rw [roundTo12_eq q]; exact key _⟩

/-- C9 counterexample: `evaluate("7%3")` does not return 1. -/
theorem C9_counterexample : safeEval none "7%3" ≠ .ok 1 := by decide

/-- C9 (amended): a `%` not immediately preceded by a digit or dot is left
alone by the percent rule, passes the allow-list, and acts as the host
remainder operator, so `(2+3)%2` evaluates to 1; but in `7%3` the `%` IS
preceded by the digit run `7`, so the percent rule rewrites it to
`(7/100)3`, which is a syntax error classified as BadExpression — the
claim's example `evaluate("7%3") = 1` is false. -/
theorem C9_percent_modulo_amended :
    (∀ (c : Char) (t : List Char), isDigitDot c = false →
      percentRewrite (c :: '%' :: t) = c :: '%' :: percentRewrite t) ∧
    isSafeChar '%' = true ∧
    normalizeExpression "(2+3)%2" = "(2+3)%2" ∧
    safeEval none "(2+3)%2" = .ok 1 ∧
    normalizeExpression "7%3" = "(7/100)3" ∧
    safeEval none "7%3" = .error .badExpression := by
  refine ⟨fun c t hc => ?_, by decide, by decide, by decide, by decide, by decide⟩
  rw [percentRewrite_cons_nodigit c ('%' :: t) hc,
    percentRewrite_cons_nodigit '%' t (by decide)]

/-- C9 witness: the no-rewrite step applied after a closing parenthesis. -/
theorem C9_witness :
    percentRewrite (')' :: '%' :: ['2']) = ')' :: '%' :: percentRewrite ['2'] :=
  C9_percent_modulo_amended.1 ')' ['2'] (by decide)

/-- C10: after the global caret rewrite the expression is evaluated with the
host exponentiation operator, which binds tighter than multiplication and is
right-associative: `2*3^4` evaluates to 162 and `2^3^2` to 512. -/
theorem C10_precedence_right_assoc :
    normalizeExpression "2*3^4" = "2*3**4" ∧ safeEval none "2*3^4" = .ok 162 ∧
    normalizeExpression "2^3^2" = "2**3**2" ∧ safeEval none "2^3^2" = .ok 512 := by
  exact ⟨by decide, by decide, by decide, by decide⟩
